import Mathlib

/-!
Verification development for the cache-archive core of the repository
(crates/turborepo-cache/src/cache_archive/{restore,create}.rs and the
turborepo-paths crate).  Names are modelled as lists of characters
(`List Char`), mirroring the byte/char level at which the Rust code works
after `to_string_lossy`.  Paths on disk are modelled as lists of
components.  Functions are translated from the Rust source; the few
pieces of the crate that are not part of the provided sources
(restore_directory.rs, restore_regular.rs, restore_symlink.rs and the
error enum's display strings) are modelled from the specification and
marked as such in their doc comments.
-/

namespace Turbo

/-- Entry kinds of the tar container that the restore path dispatches on
(`tar::EntryType` as used in restore.rs / create.rs). -/
inductive EntryType where
  | regular
  | directory
  | symlink
  | fifo
  | other
deriving DecidableEq, Repr

/-- Error kinds of the cache crate (`CacheError` in the turborepo-cache
crate).  The enum itself is not among the provided sources; the
constructors and their payloads are modelled from the spec's error
taxonomy (§7) and from how restore.rs matches on them. -/
inductive CacheError where
  | MalformedName (name : List Char)
  | WindowsUnsafeName (name : List Char)
  | LinkTargetDoesNotExist (source target : List Char)
  | LinkOutsideOfDirectory (target : List Char)
  | CycleDetected
  | UnsupportedFileType (t : EntryType)
  | Io (msg : List Char)
  | NotRelative (p : List Char)
deriving DecidableEq, Repr

/-- Character constants used by the validator. -/
def slash : Char := '/'

def dotc : Char := '.'

def bslash : Char := '\\'

def strDot : List Char := [dotc]

def strDotDot : List Char := [dotc, dotc]

def preSlash : List Char := [slash]

def preDotSlash : List Char := [dotc, slash]

def preDotDotSlash : List Char := [dotc, dotc, slash]

def sufSlashDot : List Char := [slash, dotc]

def sufSlashDotDot : List Char := [slash, dotc, dotc]

def subSlashSlash : List Char := [slash, slash]

def subSlashDotSlash : List Char := [slash, dotc, slash]

def subSlashDotDotSlash : List Char := [slash, dotc, dotc, slash]

/-- Boolean test that `p` is a leading segment of `n` (Rust `starts_with`). -/
def hasPre : List Char → List Char → Bool
  | [], _ => true
  | _ :: _, [] => false
  | p :: ps, c :: cs => decide (p = c) && hasPre ps cs

/-- Boolean test that `p` is a trailing segment of `n` (Rust `ends_with`). -/
def hasSuf (p n : List Char) : Bool :=
  hasPre p.reverse n.reverse

/-- Boolean test that `p` occurs as a contiguous segment of `n`
(Rust `contains` on string patterns). -/
def hasSub (p : List Char) : List Char → Bool
  | [] => hasPre p []
  | c :: cs => hasPre p (c :: cs) || hasSub p cs

theorem hasPre_iff (p n : List Char) : hasPre p n = true ↔ ∃ t, n = p ++ t := by
  induction p generalizing n with
  | nil => simp [hasPre]
  | cons a ps ih =>
    cases n with
    | nil => simp [hasPre]
    | cons c cs =>
      simp only [hasPre, Bool.and_eq_true, decide_eq_true_eq, ih]
      constructor
      · rintro ⟨rfl, t, rfl⟩
        exact ⟨t, rfl⟩
      · rintro ⟨t, h⟩
        cases h
        exact ⟨rfl, t, rfl⟩

theorem hasSuf_iff (p n : List Char) : hasSuf p n = true ↔ ∃ s, n = s ++ p := by
  unfold hasSuf
  rw [hasPre_iff]
  constructor
  · rintro ⟨t, h⟩
    refine ⟨t.reverse, ?_⟩
    have := congrArg List.reverse h
    simpa using this
  · rintro ⟨s, rfl⟩
    exact ⟨s.reverse, by simp⟩

theorem hasSub_iff (p n : List Char) : hasSub p n = true ↔ ∃ u v, n = u ++ p ++ v := by
  induction n with
  | nil =>
    simp only [hasSub, hasPre_iff]
    constructor
    · rintro ⟨t, h⟩
      exact ⟨[], t, by simpa using h⟩
    · rintro ⟨u, v, h⟩
      have hu : u = [] := by
        cases u with
        | nil => rfl
        | cons a as => simp at h
      subst hu
      exact ⟨v, by simpa using h⟩
  | cons c cs ih =>
    simp only [hasSub, Bool.or_eq_true, hasPre_iff, ih]
    constructor
    · rintro (⟨t, h⟩ | ⟨u, v, h⟩)
      · exact ⟨[], t, by simpa using h⟩
      · exact ⟨c :: u, v, by simp [h]⟩
    · rintro ⟨u, v, h⟩
      cases u with
      | nil => exact Or.inl ⟨v, by simpa using h⟩
      | cons a as =>
        right
        refine ⟨as, v, ?_⟩
        simp only [List.cons_append, List.cons.injEq] at h
        exact h.2

/-- Validation flags computed by the name validator
(restore.rs, `struct PathValidation`). -/
structure PathValidation where
  well_formed : Bool
  windows_safe : Bool
deriving DecidableEq, Repr

/-- Translation of `check_name` (restore.rs lines 223-273).  The Rust
function takes a `&Path`; after `to_string_lossy` it works on the
character sequence, which is what this function takes. -/
def check_name (name : List Char) : PathValidation :=
  if name = [] then
    { well_formed := false, windows_safe := false }
  else
    -- Name is "." or ".."
    let wf1 := if true && (name = strDot || name = strDotDot) then false else true
    -- Name starts with "/", "./" or "../"
    let wf2 :=
      if wf1 && (hasPre preSlash name || hasPre preDotSlash name ||
          hasPre preDotDotSlash name) then false else wf1
    -- Name ends in "/." or "/.."
    let wf3 :=
      if wf2 && (hasSuf sufSlashDot name || hasSuf sufSlashDotDot name) then
        false else wf2
    -- Name contains "//", "/./" or "/../"
    let wf4 :=
      if wf3 && (hasSub subSlashSlash name || hasSub subSlashDotSlash name ||
          hasSub subSlashDotDotSlash name) then false else wf3
    -- Name contains a backslash
    let ws := if bslash ∈ name then false else true
    { well_formed := wf4, windows_safe := ws }

example : (check_name ([] : List Char)).well_formed = false := by decide

example : (check_name ['a', '/', 'b']).well_formed = true := by decide

example : (check_name [dotc, dotc, dotc]).well_formed = true := by decide

example : (check_name [dotc, dotc, slash, 'a']).well_formed = false := by decide

example : (check_name ['a', slash, dotc, dotc]).well_formed = false := by decide

example : (check_name ['a', bslash, 'b']).windows_safe = false := by decide

theorem check_name_well_formed_eq (n : List Char) (h : n ≠ []) :
    (check_name n).well_formed =
      !(decide (n = strDot) || decide (n = strDotDot) ||
        (hasPre preSlash n || hasPre preDotSlash n || hasPre preDotDotSlash n) ||
        (hasSuf sufSlashDot n || hasSuf sufSlashDotDot n) ||
        (hasSub subSlashSlash n || hasSub subSlashDotSlash n ||
          hasSub subSlashDotDotSlash n)) := by
  simp only [check_name, if_neg h, Bool.true_and]
  generalize (decide (n = strDot) || decide (n = strDotDot)) = b1
  generalize (hasPre preSlash n || hasPre preDotSlash n ||
    hasPre preDotDotSlash n) = b2
  generalize (hasSuf sufSlashDot n || hasSuf sufSlashDotDot n) = b3
  generalize (hasSub subSlashSlash n || hasSub subSlashDotSlash n ||
    hasSub subSlashDotDotSlash n) = b4
  cases b1 <;> cases b2 <;> cases b3 <;> cases b4 <;> rfl

theorem check_name_well_formed_false_iff (n : List Char) :
    (check_name n).well_formed = false ↔
      (n = [] ∨ n = strDot ∨ n = strDotDot ∨
        (∃ t, n = preSlash ++ t) ∨ (∃ t, n = preDotSlash ++ t) ∨
        (∃ t, n = preDotDotSlash ++ t) ∨
        (∃ s, n = s ++ sufSlashDot) ∨ (∃ s, n = s ++ sufSlashDotDot) ∨
        (∃ u v, n = u ++ subSlashSlash ++ v) ∨
        (∃ u v, n = u ++ subSlashDotSlash ++ v) ∨
        (∃ u v, n = u ++ subSlashDotDotSlash ++ v)) := by
  by_cases h : n = []
  · subst h
    simp [check_name]
  · rw [check_name_well_formed_eq n h]
    simp only [Bool.not_eq_false', Bool.or_eq_true, decide_eq_true_eq,
      hasPre_iff, hasSuf_iff, hasSub_iff]
    constructor
    · rintro ((((h1 | h1) | ((h1 | h1) | h1)) | (h1 | h1)) | ((h1 | h1) | h1))
      · exact Or.inr (Or.inl h1)
      · exact Or.inr (Or.inr (Or.inl h1))
      · exact Or.inr (Or.inr (Or.inr (Or.inl h1)))
      · exact Or.inr (Or.inr (Or.inr (Or.inr (Or.inl h1))))
      · exact Or.inr (Or.inr (Or.inr (Or.inr (Or.inr (Or.inl h1)))))
      · exact Or.inr (Or.inr (Or.inr (Or.inr (Or.inr (Or.inr (Or.inl h1))))))
      · exact Or.inr (Or.inr (Or.inr (Or.inr (Or.inr (Or.inr (Or.inr
          (Or.inl h1)))))))
      · exact Or.inr (Or.inr (Or.inr (Or.inr (Or.inr (Or.inr (Or.inr
          (Or.inr (Or.inl h1))))))))
      · exact Or.inr (Or.inr (Or.inr (Or.inr (Or.inr (Or.inr (Or.inr
          (Or.inr (Or.inr (Or.inl h1)))))))))
      · exact Or.inr (Or.inr (Or.inr (Or.inr (Or.inr (Or.inr (Or.inr
          (Or.inr (Or.inr (Or.inr h1)))))))))
    · rintro (h1 | h1 | h1 | h1 | h1 | h1 | h1 | h1 | h1 | h1 | h1)
      · exact absurd h1 h
      · exact Or.inl (Or.inl (Or.inl (Or.inl h1)))
      · exact Or.inl (Or.inl (Or.inl (Or.inr h1)))
      · exact Or.inl (Or.inl (Or.inr (Or.inl (Or.inl h1))))
      · exact Or.inl (Or.inl (Or.inr (Or.inl (Or.inr h1))))
      · exact Or.inl (Or.inl (Or.inr (Or.inr h1)))
      · exact Or.inl (Or.inr (Or.inl h1))
      · exact Or.inl (Or.inr (Or.inr h1))
      · exact Or.inr (Or.inl (Or.inl h1))
      · exact Or.inr (Or.inl (Or.inr h1))
      · exact Or.inr (Or.inr h1)

theorem check_name_windows_safe_false_iff (n : List Char) :
    (check_name n).windows_safe = false ↔ (n = [] ∨ bslash ∈ n) := by
  by_cases h : n = []
  · subst h
    simp [check_name]
  · rw [check_name, if_neg h]
    by_cases hb : bslash ∈ n <;> simp [hb, h]

/-- Splitting a character sequence at every slash, keeping empty pieces
(the raw component split that both `Path::components` and our analysis of
the validator are built on). -/
def splitSlash : List Char → List (List Char)
  | [] => [[]]
  | c :: rest =>
    if c = slash then [] :: splitSlash rest
    else
      match splitSlash rest with
      | [] => [[c]]
      | p :: ps => (c :: p) :: ps

/-- Joining components with a slash separator (the inverse of
`splitSlash`; models rebuilding a `PathBuf` from components on a host
whose separator is the forward slash). -/
def joinSlash : List (List Char) → List Char
  | [] => []
  | [q] => q
  | q :: qs => q ++ slash :: joinSlash qs

theorem joinSlash_cons_cons (q q' : List Char) (qs : List (List Char)) :
    joinSlash (q :: q' :: qs) = q ++ slash :: joinSlash (q' :: qs) := rfl

theorem splitSlash_ne_nil (l : List Char) : splitSlash l ≠ [] := by
  induction l with
  | nil => simp [splitSlash]
  | cons c rest ih =>
    rw [splitSlash]
    split
    · simp
    · split
      · simp
      · simp

theorem noslash_mem_splitSlash (l : List Char) :
    ∀ p ∈ splitSlash l, slash ∉ p := by
  induction l with
  | nil =>
    intro p hp
    simp [splitSlash] at hp
    simp [hp]
  | cons c rest ih =>
    intro p hp
    rw [splitSlash] at hp
    by_cases hc : c = slash
    · rw [if_pos hc] at hp
      rcases List.mem_cons.mp hp with h1 | h1
      · simp [h1]
      · exact ih p h1
    · rw [if_neg hc] at hp
      rcases hsp : splitSlash rest with _ | ⟨q, qs⟩
      · exact absurd hsp (splitSlash_ne_nil rest)
      · rw [hsp] at hp
        rcases List.mem_cons.mp hp with h1 | h1
        · subst h1
          intro hmem
          rcases List.mem_cons.mp hmem with h2 | h2
          · exact hc h2.symm
          · exact ih q (hsp ▸ List.mem_cons_self q qs) h2
        · exact ih p (hsp ▸ List.mem_cons.mpr (Or.inr h1))

theorem joinSlash_splitSlash (l : List Char) :
    joinSlash (splitSlash l) = l := by
  induction l with
  | nil => rfl
  | cons c rest ih =>
    rw [splitSlash]
    by_cases hc : c = slash
    · rw [if_pos hc]
      rcases hsp : splitSlash rest with _ | ⟨q, qs⟩
      · exact absurd hsp (splitSlash_ne_nil rest)
      · rw [hsp] at ih
        rw [joinSlash_cons_cons, List.nil_append, ih, hc]
    · rw [if_neg hc]
      rcases hsp : splitSlash rest with _ | ⟨q, qs⟩
      · exact absurd hsp (splitSlash_ne_nil rest)
      · rw [hsp] at ih
        show joinSlash ((c :: q) :: qs) = c :: rest
        cases qs with
        | nil =>
          simp only [joinSlash] at ih ⊢
          rw [ih]
        | cons q' qs' =>
          rw [joinSlash_cons_cons] at ih
          rw [joinSlash_cons_cons, ← ih]
          simp

theorem splitSlash_single (X : List Char) (hX : slash ∉ X) :
    splitSlash X = [X] := by
  induction X with
  | nil => rfl
  | cons c cs ih =>
    rw [splitSlash]
    have hc : ¬ c = slash := fun h => hX (h ▸ List.mem_cons_self c cs)
    rw [if_neg hc, ih (fun h => hX (List.mem_cons.mpr (Or.inr h)))]

theorem splitSlash_concat (a b : List Char) :
    splitSlash (a ++ slash :: b) = splitSlash a ++ splitSlash b := by
  induction a with
  | nil =>
    simp only [List.nil_append]
    show splitSlash (slash :: b) = splitSlash [] ++ splitSlash b
    rw [splitSlash]
    simp [splitSlash]
  | cons c cs ih =>
    simp only [List.cons_append]
    rw [splitSlash]
    by_cases hc : c = slash
    · rw [if_pos hc, ih]
      conv_rhs => rw [splitSlash, if_pos hc]
      rfl
    · rw [if_neg hc, ih]
      conv_rhs => rw [splitSlash, if_neg hc]
      rcases hsp : splitSlash cs with _ | ⟨p, ps⟩
      · exact absurd hsp (splitSlash_ne_nil cs)
      · rfl

theorem splitSlash_joinSlash (qs : List (List Char)) (h : qs ≠ [])
    (hq : ∀ q ∈ qs, slash ∉ q) : splitSlash (joinSlash qs) = qs := by
  induction qs with
  | nil => exact absurd rfl h
  | cons q qs ih =>
    cases qs with
    | nil => exact splitSlash_single q (hq q (List.mem_cons_self q []))
    | cons q' qs' =>
      rw [joinSlash_cons_cons, splitSlash_concat,
        splitSlash_single q (hq q (List.mem_cons_self _ _)),
        ih (List.cons_ne_nil q' qs')
          (fun x hx => hq x (List.mem_cons.mpr (Or.inr hx)))]
      rfl

theorem joinSlash_append (a b : List (List Char)) (ha : a ≠ []) (hb : b ≠ []) :
    joinSlash (a ++ b) = joinSlash a ++ slash :: joinSlash b := by
  induction a with
  | nil => exact absurd rfl ha
  | cons q a ih =>
    cases a with
    | nil =>
      cases b with
      | nil => exact absurd rfl hb
      | cons b1 bs =>
        rw [List.singleton_append, joinSlash_cons_cons]
        rfl
    | cons q2 a' =>
      have step : (q :: q2 :: a') ++ b = q :: ((q2 :: a') ++ b) := rfl
      rw [step]
      have h2 : (q2 :: a') ++ b = q2 :: (a' ++ b) := rfl
      rw [h2, joinSlash_cons_cons, ← h2,
        ih (List.cons_ne_nil q2 a'), joinSlash_cons_cons]
      simp

theorem mem_splitSlash_shapes (l X : List Char) (hX : X ∈ splitSlash l) :
    l = X ∨ (∃ t, l = X ++ slash :: t) ∨ (∃ s, l = s ++ slash :: X) ∨
      (∃ s t, l = s ++ slash :: X ++ slash :: t) := by
  obtain ⟨ps₁, ps₂, hsplit⟩ := List.append_of_mem hX
  have hl := (joinSlash_splitSlash l).symm
  rw [hsplit] at hl
  cases ps₁ with
  | nil =>
    cases ps₂ with
    | nil => exact Or.inl (by simpa [joinSlash] using hl)
    | cons p ps =>
      refine Or.inr (Or.inl ⟨joinSlash (p :: ps), ?_⟩)
      simpa [joinSlash_cons_cons] using hl
  | cons a as =>
    cases ps₂ with
    | nil =>
      refine Or.inr (Or.inr (Or.inl ⟨joinSlash (a :: as), ?_⟩))
      rw [joinSlash_append (a :: as) [X] (List.cons_ne_nil a as)
        (List.cons_ne_nil X [])] at hl
      simpa [joinSlash] using hl
    | cons p ps =>
      refine Or.inr (Or.inr (Or.inr ⟨joinSlash (a :: as), joinSlash (p :: ps), ?_⟩))
      rw [joinSlash_append (a :: as) (X :: p :: ps) (List.cons_ne_nil a as)
        (List.cons_ne_nil X (p :: ps)), joinSlash_cons_cons] at hl
      simpa using hl

theorem splitSlash_head_shape (l p : List Char) (ps : List (List Char))
    (h : splitSlash l = p :: ps) : l = p ∨ ∃ t, l = p ++ slash :: t := by
  have hl := (joinSlash_splitSlash l).symm
  rw [h] at hl
  cases ps with
  | nil => exact Or.inl (by simpa [joinSlash] using hl)
  | cons q qs =>
    refine Or.inr ⟨joinSlash (q :: qs), ?_⟩
    simpa [joinSlash_cons_cons] using hl

theorem splitSlash_slash_cons (b : List Char) :
    splitSlash (slash :: b) = [] :: splitSlash b := by
  rw [splitSlash]
  simp

/-- Filter used by the component model: Rust `Path::components` skips
empty pieces and interior `.` pieces. -/
def keepComp (c : List Char) : Bool :=
  !(decide (c = []) || decide (c = strDot))

/-- Model of `name.components().collect::<PathBuf>()` (restore.rs line
209) for relative paths: split at separators, drop empty pieces and
non-leading `.` pieces.  Rust keeps a leading `.` component, which this
model preserves; a leading root component (absolute path) cannot reach
this point of `canonicalize_name` because `check_name` has already
rejected names starting with a separator. -/
def pathComponents (l : List Char) : List (List Char) :=
  match splitSlash l with
  | [] => []
  | p :: ps =>
    let rest := ps.filter keepComp
    if p = strDot then strDot :: rest
    else if p = [] then rest
    else p :: rest

/-- Translation of `canonicalize_name` (restore.rs lines 183-215) on a
POSIX host: the `#[cfg(windows)]` block is compiled out, and recomposing
the components with the system separator is `joinSlash`.  The final
`AnchoredSystemPathBuf::from_path_buf` call fails with `NotRelative` when
the recomposed path is absolute. -/
def canonicalize_name (name : List Char) : Except CacheError (List Char) :=
  let v := check_name name
  if v.well_formed = false then
    .error (.MalformedName name)
  else
    let no_trailing_slash := joinSlash (pathComponents name)
    if hasPre preSlash no_trailing_slash then
      .error (.NotRelative no_trailing_slash)
    else
      .ok no_trailing_slash

deriving instance DecidableEq for Except

example : canonicalize_name ['a', slash] = .ok ['a'] := by decide

example : canonicalize_name ['a', slash, 'b'] = .ok ['a', slash, 'b'] := by
  decide

example : canonicalize_name [slash, slash] =
    .error (.MalformedName [slash, slash]) := by decide

/-- A component that survives canonicalization: non-empty, separator-free
and not a traversal token. -/
def goodPart (q : List Char) : Prop :=
  q ≠ [] ∧ slash ∉ q ∧ q ≠ strDot ∧ q ≠ strDotDot

theorem wf_checks (l : List Char) (h : (check_name l).well_formed = true) :
    l ≠ [] ∧ ¬ l = strDot ∧ ¬ l = strDotDot ∧
      hasPre preSlash l = false ∧ hasPre preDotSlash l = false ∧
      hasPre preDotDotSlash l = false ∧ hasSuf sufSlashDot l = false ∧
      hasSuf sufSlashDotDot l = false ∧ hasSub subSlashSlash l = false ∧
      hasSub subSlashDotSlash l = false ∧ hasSub subSlashDotDotSlash l = false := by
  have hne : l ≠ [] := by
    intro he
    subst he
    simp [check_name] at h
  rw [check_name_well_formed_eq l hne] at h
  simp only [Bool.not_eq_eq_eq_not, Bool.not_true, Bool.or_eq_false_iff,
    decide_eq_false_iff_not] at h
  exact ⟨hne, h.1.1.1.1, h.1.1.1.2, h.1.1.2.1.1, h.1.1.2.1.2, h.1.1.2.2,
    h.1.2.1, h.1.2.2, h.2.1.1, h.2.1.2, h.2.2⟩

theorem wf_not_mem_strDotDot (l : List Char)
    (h : (check_name l).well_formed = true) : strDotDot ∉ splitSlash l := by
  obtain ⟨-, -, h3, -, -, h6, -, h8, -, -, h11⟩ := wf_checks l h
  intro hmem
  rcases mem_splitSlash_shapes l strDotDot hmem with h1 | ⟨t, h1⟩ | ⟨s, h1⟩ | ⟨s, t, h1⟩
  · exact h3 h1
  · have : hasPre preDotDotSlash l = true := by
      rw [hasPre_iff]
      exact ⟨t, by simpa [preDotDotSlash, strDotDot, List.cons_append] using h1⟩
    rw [h6] at this
    cases this
  · have : hasSuf sufSlashDotDot l = true := by
      rw [hasSuf_iff]
      exact ⟨s, by simpa [sufSlashDotDot, strDotDot] using h1⟩
    rw [h8] at this
    cases this
  · have : hasSub subSlashDotDotSlash l = true := by
      rw [hasSub_iff]
      exact ⟨s, t, by simpa [subSlashDotDotSlash, strDotDot, List.cons_append]
        using h1⟩
    rw [h11] at this
    cases this

theorem wf_pathComponents_shape (l : List Char)
    (h : (check_name l).well_formed = true) :
    ∃ p ps, splitSlash l = p :: ps ∧
      pathComponents l = p :: ps.filter keepComp ∧ goodPart p := by
  obtain ⟨-, h2, h3, h4, h5, h6, -, -, -, -, -⟩ := wf_checks l h
  rcases hsp : splitSlash l with _ | ⟨p, ps⟩
  · exact absurd hsp (splitSlash_ne_nil l)
  · have hshape := splitSlash_head_shape l p ps hsp
    have hpne : p ≠ [] := by
      rintro rfl
      rcases hshape with h1 | ⟨t, h1⟩
      · exact (wf_checks l h).1 h1
      · have : hasPre preSlash l = true := by
          rw [hasPre_iff]
          exact ⟨t, by simpa [preSlash] using h1⟩
        rw [h4] at this
        cases this
    have hpdot : p ≠ strDot := by
      rintro rfl
      rcases hshape with h1 | ⟨t, h1⟩
      · exact h2 h1
      · have : hasPre preDotSlash l = true := by
          rw [hasPre_iff]
          exact ⟨t, by simpa [preDotSlash, strDot] using h1⟩
        rw [h5] at this
        cases this
    have hpdotdot : p ≠ strDotDot := by
      rintro rfl
      rcases hshape with h1 | ⟨t, h1⟩
      · exact h3 h1
      · have : hasPre preDotDotSlash l = true := by
          rw [hasPre_iff]
          exact ⟨t, by simpa [preDotDotSlash, strDotDot] using h1⟩
        rw [h6] at this
        cases this
    refine ⟨p, ps, rfl, ?_, hpne, ?_, hpdot, hpdotdot⟩
    · rw [pathComponents, hsp]
      simp only [if_neg hpdot, if_neg hpne]
    · exact noslash_mem_splitSlash l p (hsp ▸ List.mem_cons_self p ps)

theorem wf_pathComponents_good (l : List Char)
    (h : (check_name l).well_formed = true) :
    pathComponents l ≠ [] ∧ ∀ q ∈ pathComponents l, goodPart q := by
  obtain ⟨p, ps, hsp, hpc, hgp⟩ := wf_pathComponents_shape l h
  rw [hpc]
  refine ⟨List.cons_ne_nil _ _, ?_⟩
  intro q hq
  rcases List.mem_cons.mp hq with rfl | hq
  · exact hgp
  · have hqmem : q ∈ ps := List.mem_of_mem_filter hq
    have hkeep : keepComp q = true := List.of_mem_filter hq
    have hmem : q ∈ splitSlash l := hsp ▸ List.mem_cons.mpr (Or.inr hqmem)
    simp only [keepComp, Bool.not_eq_eq_eq_not, Bool.not_true,
      Bool.or_eq_false_iff, decide_eq_false_iff_not] at hkeep
    exact ⟨hkeep.1, noslash_mem_splitSlash l q hmem, hkeep.2,
      fun hdd => wf_not_mem_strDotDot l h (hdd ▸ hmem)⟩

theorem joinSlash_good_ne_nil (qs : List (List Char)) (hne : qs ≠ [])
    (hg : ∀ q ∈ qs, goodPart q) : joinSlash qs ≠ [] := by
  cases qs with
  | nil => exact absurd rfl hne
  | cons q rest =>
    cases rest with
    | nil => exact (hg q (List.mem_cons_self q [])).1
    | cons r rs =>
      rw [joinSlash_cons_cons]
      intro he
      have := congrArg List.length he
      simp at this

theorem check_name_joinSlash_good (qs : List (List Char)) (hne : qs ≠ [])
    (hg : ∀ q ∈ qs, goodPart q) :
    (check_name (joinSlash qs)).well_formed = true := by
  have hsp : splitSlash (joinSlash qs) = qs :=
    splitSlash_joinSlash qs hne (fun q hq => (hg q hq).2.1)
  have hbadnil : [] ∉ qs := fun hx => (hg [] hx).1 rfl
  have hbaddot : strDot ∉ qs := fun hx => (hg strDot hx).2.2.1 rfl
  have hbadddot : strDotDot ∉ qs := fun hx => (hg strDotDot hx).2.2.2 rfl
  have mne : joinSlash qs ≠ [] := joinSlash_good_ne_nil qs hne hg
  have hA1 : ¬ joinSlash qs = strDot := by
    intro hx
    apply hbaddot
    rw [← hsp, hx, splitSlash_single strDot (by decide)]
    exact List.mem_cons_self _ _
  have hA2 : ¬ joinSlash qs = strDotDot := by
    intro hx
    apply hbadddot
    rw [← hsp, hx, splitSlash_single strDotDot (by decide)]
    exact List.mem_cons_self _ _
  have hB1 : hasPre preSlash (joinSlash qs) = false := by
    rw [Bool.eq_false_iff]
    intro hx
    obtain ⟨t, ht⟩ := (hasPre_iff _ _).mp hx
    apply hbadnil
    rw [← hsp, ht]
    show [] ∈ splitSlash (slash :: t)
    rw [splitSlash_slash_cons]
    exact List.mem_cons_self _ _
  have hB2 : hasPre preDotSlash (joinSlash qs) = false := by
    rw [Bool.eq_false_iff]
    intro hx
    obtain ⟨t, ht⟩ := (hasPre_iff _ _).mp hx
    apply hbaddot
    rw [← hsp, ht]
    show strDot ∈ splitSlash (strDot ++ slash :: t)
    rw [splitSlash_concat, splitSlash_single strDot (by decide)]
    exact List.mem_cons_self _ _
  have hB3 : hasPre preDotDotSlash (joinSlash qs) = false := by
    rw [Bool.eq_false_iff]
    intro hx
    obtain ⟨t, ht⟩ := (hasPre_iff _ _).mp hx
    apply hbadddot
    rw [← hsp, ht]
    show strDotDot ∈ splitSlash (strDotDot ++ slash :: t)
    rw [splitSlash_concat, splitSlash_single strDotDot (by decide)]
    exact List.mem_cons_self _ _
  have hC1 : hasSuf sufSlashDot (joinSlash qs) = false := by
    rw [Bool.eq_false_iff]
    intro hx
    obtain ⟨s, hs⟩ := (hasSuf_iff _ _).mp hx
    apply hbaddot
    rw [← hsp, hs]
    show strDot ∈ splitSlash (s ++ slash :: strDot)
    rw [splitSlash_concat, splitSlash_single strDot (by decide)]
    exact List.mem_append_right _ (List.mem_cons_self _ _)
  have hC2 : hasSuf sufSlashDotDot (joinSlash qs) = false := by
    rw [Bool.eq_false_iff]
    intro hx
    obtain ⟨s, hs⟩ := (hasSuf_iff _ _).mp hx
    apply hbadddot
    rw [← hsp, hs]
    show strDotDot ∈ splitSlash (s ++ slash :: strDotDot)
    rw [splitSlash_concat, splitSlash_single strDotDot (by decide)]
    exact List.mem_append_right _ (List.mem_cons_self _ _)
  have hD1 : hasSub subSlashSlash (joinSlash qs) = false := by
    rw [Bool.eq_false_iff]
    intro hx
    obtain ⟨u, v, huv⟩ := (hasSub_iff _ _).mp hx
    apply hbadnil
    have heq : u ++ subSlashSlash ++ v = u ++ slash :: (slash :: v) := by
      simp [subSlashSlash]
    rw [← hsp, huv, heq]
    rw [splitSlash_concat, splitSlash_slash_cons]
    exact List.mem_append_right _ (List.mem_cons_self _ _)
  have hD2 : hasSub subSlashDotSlash (joinSlash qs) = false := by
    rw [Bool.eq_false_iff]
    intro hx
    obtain ⟨u, v, huv⟩ := (hasSub_iff _ _).mp hx
    apply hbaddot
    have heq : u ++ subSlashDotSlash ++ v = u ++ slash :: (strDot ++ slash :: v) := by
      simp [subSlashDotSlash, strDot]
    rw [← hsp, huv, heq]
    rw [splitSlash_concat, splitSlash_concat, splitSlash_single strDot (by decide)]
    exact List.mem_append_right _ (List.mem_append_left _ (List.mem_cons_self _ _))
  have hD3 : hasSub subSlashDotDotSlash (joinSlash qs) = false := by
    rw [Bool.eq_false_iff]
    intro hx
    obtain ⟨u, v, huv⟩ := (hasSub_iff _ _).mp hx
    apply hbadddot
    have heq : u ++ subSlashDotDotSlash ++ v =
        u ++ slash :: (strDotDot ++ slash :: v) := by
      simp [subSlashDotDotSlash, strDotDot]
    rw [← hsp, huv, heq]
    rw [splitSlash_concat, splitSlash_concat,
      splitSlash_single strDotDot (by decide)]
    exact List.mem_append_right _ (List.mem_append_left _ (List.mem_cons_self _ _))
  rw [check_name_well_formed_eq _ mne, hB1, hB2, hB3, hC1, hC2, hD1, hD2, hD3,
    decide_eq_false_iff_not.mpr hA1, decide_eq_false_iff_not.mpr hA2]
  rfl

theorem pathComponents_joinSlash_good (qs : List (List Char)) (hne : qs ≠ [])
    (hg : ∀ q ∈ qs, goodPart q) : pathComponents (joinSlash qs) = qs := by
  have hsp : splitSlash (joinSlash qs) = qs :=
    splitSlash_joinSlash qs hne (fun q hq => (hg q hq).2.1)
  unfold pathComponents
  rw [hsp]
  cases qs with
  | nil => exact absurd rfl hne
  | cons q rest =>
    have hq := hg q (List.mem_cons_self q rest)
    have hfilter : rest.filter keepComp = rest := by
      rw [List.filter_eq_self]
      intro a ha
      have hga := hg a (List.mem_cons.mpr (Or.inr ha))
      simp [keepComp, hga.1, hga.2.2.1]
    simp only [if_neg hq.2.2.1, if_neg hq.1, hfilter]

theorem canonicalize_name_ok_inv (x y : List Char)
    (h : canonicalize_name x = .ok y) :
    (check_name x).well_formed = true ∧ y = joinSlash (pathComponents x) := by
  unfold canonicalize_name at h
  by_cases h1 : (check_name x).well_formed = false
  · rw [if_pos h1] at h
    cases h
  · rw [if_neg h1] at h
    refine ⟨eq_true_of_ne_false h1, ?_⟩
    by_cases h2 : hasPre preSlash (joinSlash (pathComponents x)) = true
    · simp only [h2, if_true] at h
      cases h
    · simp only [Bool.eq_false_iff.mpr h2, if_false, Bool.false_eq_true] at h
      cases h
      rfl

/-- C3: `canonicalize_name` is idempotent: whenever it succeeds with
result `y`, applying it to `y` succeeds with the same result. -/
theorem canonicalize_name_idempotent_C3 (x y : List Char)
    (h : canonicalize_name x = .ok y) : canonicalize_name y = .ok y := by
  obtain ⟨hwf, rfl⟩ := canonicalize_name_ok_inv x y h
  obtain ⟨hne, hgood⟩ := wf_pathComponents_good x hwf
  have hwfy := check_name_joinSlash_good (pathComponents x) hne hgood
  have hpc := pathComponents_joinSlash_good (pathComponents x) hne hgood
  have habs := (wf_checks _ hwfy).2.2.2.1
  simp only [canonicalize_name, hwfy, hpc, habs, Bool.true_eq_false, if_false,
    Bool.false_eq_true]

/-- Witness for C3 at the concrete input "a/" (which canonicalizes
to "a"). -/
theorem canonicalize_name_idempotent_C3_witness :
    canonicalize_name ['a', slash] = .ok ['a'] ∧
      canonicalize_name ['a'] = .ok ['a'] :=
  ⟨by decide, canonicalize_name_idempotent_C3 ['a', slash] ['a'] (by decide)⟩

/-- C2 counterexample: on the empty name, `check_name` reports
`windows_safe = false` although the empty name contains no backslash,
refuting "windows_safe = false exactly when the name contains a
backslash". -/
theorem check_name_windows_safe_counterexample_C2 :
    (check_name []).windows_safe = false ∧ bslash ∉ ([] : List Char) := by
  decide

/-- C2 (amended): for every input name, `check_name` returns
`well_formed = false` exactly when the name is empty, equals "." or "..",
starts with "/", "./" or "../", ends with "/." or "/..", or contains
"//", "/./" or "/../" as a substring (so "...", ".../a", "a/..." are
well-formed), and returns `windows_safe = false` exactly when the name is
empty or contains a backslash. -/
theorem check_name_spec_C2 :
    (∀ n : List Char, (check_name n).well_formed = false ↔
      (n = [] ∨ n = strDot ∨ n = strDotDot ∨
        (∃ t, n = preSlash ++ t) ∨ (∃ t, n = preDotSlash ++ t) ∨
        (∃ t, n = preDotDotSlash ++ t) ∨
        (∃ s, n = s ++ sufSlashDot) ∨ (∃ s, n = s ++ sufSlashDotDot) ∨
        (∃ u v, n = u ++ subSlashSlash ++ v) ∨
        (∃ u v, n = u ++ subSlashDotSlash ++ v) ∨
        (∃ u v, n = u ++ subSlashDotDotSlash ++ v))) ∧
    (check_name [dotc, dotc, dotc]).well_formed = true ∧
    (check_name [dotc, dotc, dotc, slash, 'a']).well_formed = true ∧
    (check_name ['a', slash, dotc, dotc, dotc]).well_formed = true ∧
    (∀ n : List Char, (check_name n).windows_safe = false ↔
      (n = [] ∨ bslash ∈ n)) :=
  ⟨check_name_well_formed_false_iff, by decide, by decide, by decide,
    check_name_windows_safe_false_iff⟩

/-- Tar header as manipulated by create.rs.  `tar::Header::new_gnu`
zero-initializes every numeric field and the zero type byte denotes a
regular entry; this create.rs never calls `set_entry_type`. -/
structure TarHeader where
  path : List Char
  entryType : EntryType
  linkName : Option (List Char)
  mode : Nat
  uid : Nat
  gid : Nat
  atime : Nat
  mtime : Nat
  ctime : Nat
  size : Nat
deriving DecidableEq, Repr

/-- Model of `tar::Header::new_gnu()`. -/
def newGnuHeader : TarHeader :=
  { path := [], entryType := .regular, linkName := none, mode := 0,
    uid := 0, gid := 0, atime := 0, mtime := 0, ctime := 0, size := 0 }

/-- Result of `fs::symlink_metadata` as consumed by add_file: the kind
flags and the host permission bits. -/
structure Metadata where
  is_dir : Bool
  is_symlink : Bool
  mode : Nat
deriving DecidableEq, Repr

/-- Translation of `AnchoredUnixPathBuf::make_canonical_for_tar`
(anchored_unix_path_buf.rs lines 13-19): append a slash to directory
entries that do not already end in one. -/
def make_canonical_for_tar (p : List Char) (dirFlag : Bool) : List Char :=
  if dirFlag then (if hasSuf preSlash p then p else p ++ [slash]) else p

/-- Translation of `CacheWriter::create_header` (create.rs lines 71-86)
on a unix host: set the mode from the metadata, canonicalize the path for
tar, set the path. -/
def create_header (path : List Char) (file_info : Metadata) : TarHeader :=
  let h := { newGnuHeader with mode := file_info.mode }
  { h with path := make_canonical_for_tar path file_info.is_dir }

/-- Translation of `CacheWriter::add_file` (create.rs lines 26-69),
returning the header it appends to the tar builder.  The filesystem reads
(`symlink_metadata`, `read_link`) are inputs.  `RelativeUnixPathBuf::new`
(not among the provided sources) is modelled from the spec's path-kind
contract: a relative unix path never starts with a separator. -/
def add_file (file_path : List Char) (file_info : Metadata)
    (link : Option (List Char)) : Except CacheError TarHeader :=
  if hasPre preSlash file_path then .error (.NotRelative file_path)
  else
    let header := create_header file_path file_info
    let header :=
      if file_info.is_symlink then { header with linkName := link } else header
    if header.entryType = .regular ∨ header.entryType = .directory ∨
        header.entryType = .symlink then
      -- Consistent creation
      let header :=
        { header with uid := 0, gid := 0, atime := 0, mtime := 0, ctime := 0 }
      .ok header
    else
      .error (.UnsupportedFileType header.entryType)

/-- C5: every header that `CacheWriter::add_file` appends to the archive
has uid, gid, atime, mtime and ctime all zero, for every input file and
metadata. -/
theorem add_file_zeroed_metadata_C5 (fp : List Char) (fi : Metadata)
    (link : Option (List Char)) (h : TarHeader)
    (hok : add_file fp fi link = .ok h) :
    h.uid = 0 ∧ h.gid = 0 ∧ h.atime = 0 ∧ h.mtime = 0 ∧ h.ctime = 0 := by
  unfold add_file at hok
  by_cases h1 : hasPre preSlash fp = true
  · rw [if_pos h1] at hok
    cases hok
  · rw [if_neg h1] at hok
    simp only at hok
    split at hok <;> (try split at hok) <;> (try cases hok) <;>
      exact ⟨rfl, rfl, rfl, rfl, rfl⟩

/-- Witness for C5 on a concrete regular file with mode 0o644. -/
theorem add_file_zeroed_metadata_C5_witness :
    (⟨['a'], .regular, none, 420, 0, 0, 0, 0, 0, 0⟩ : TarHeader).uid = 0 ∧
      (⟨['a'], .regular, none, 420, 0, 0, 0, 0, 0, 0⟩ : TarHeader).gid = 0 ∧
      (⟨['a'], .regular, none, 420, 0, 0, 0, 0, 0, 0⟩ : TarHeader).atime = 0 ∧
      (⟨['a'], .regular, none, 420, 0, 0, 0, 0, 0, 0⟩ : TarHeader).mtime = 0 ∧
      (⟨['a'], .regular, none, 420, 0, 0, 0, 0, 0, 0⟩ : TarHeader).ctime = 0 :=
  add_file_zeroed_metadata_C5 ['a'] ⟨false, false, 420⟩ none _ (by decide)

/-- Generic boolean leading-segment test on lists (used for
component-level path prefixes). -/
def listPre {α : Type} [DecidableEq α] : List α → List α → Bool
  | [], _ => true
  | _ :: _, [] => false
  | a :: as, b :: bs => decide (a = b) && listPre as bs

theorem listPre_iff {α : Type} [DecidableEq α] (p n : List α) :
    listPre p n = true ↔ ∃ t, n = p ++ t := by
  induction p generalizing n with
  | nil => simp [listPre]
  | cons a ps ih =>
    cases n with
    | nil => simp [listPre]
    | cons c cs =>
      simp only [listPre, Bool.and_eq_true, decide_eq_true_eq, ih]
      constructor
      · rintro ⟨rfl, t, rfl⟩
        exact ⟨t, rfl⟩
      · rintro ⟨t, h⟩
        cases h
        exact ⟨rfl, t, rfl⟩

/-- Absolute on-disk paths, as lists of components. -/
abbrev AbsPath := List (List Char)

/-- Filesystem node kinds.  A symlink stores its raw target string
exactly as the `symlink` system call would. -/
inductive FsNode where
  | dir
  | file (body : List Nat)
  | symlink (target : List Char)
deriving DecidableEq, Repr

/-- The model filesystem: an association list from absolute paths to
nodes; the most recent binding for a path shadows older ones, which
models clobbering creation. -/
abbrev Fs := List (AbsPath × FsNode)

def fsGet (fs : Fs) (p : AbsPath) : Option FsNode :=
  (fs.find? (fun e => decide (e.1 = p))).map (·.2)

def fsSet (fs : Fs) (p : AbsPath) (n : FsNode) : Fs :=
  (p, n) :: fs

/-- Restore-session state: the filesystem plus a log of the entry-driven
writes, each recorded at the resolved real path at which it lands. -/
structure St where
  fs : Fs
  writes : List AbsPath
deriving DecidableEq, Repr

/-- Outcome of a fallible model operation: success, a `CacheError`, or a
Rust panic (an `expect`/`unwrap` failure, which is not an error value). -/
inductive Outcome (α : Type) where
  | ok (a : α)
  | err (e : CacheError)
  | panicked (msg : List Char)
deriving DecidableEq, Repr

/-- The `expect` message of restore.rs line 136. -/
def msgLinkname : List Char := "symlink without linkname".data

def msgLoop : List Char := "too many levels of symbolic links".data

def msgNotDir : List Char := "Not a directory (os error 20)".data

def msgIsDir : List Char := "Is a directory (os error 21)".data

def msgEmptyName : List Char := "empty canonical name".data

/-- Parse a raw path string into traversal components: split at
separators, drop empty pieces and "." pieces, keep "..". -/
def rawComponents (l : List Char) : List (List Char) :=
  (splitSlash l).filter (fun c => !(decide (c = []) || decide (c = strDot)))

/-- Lexical normalization of ".." steps against an accumulated absolute
path, clamping at the root (the path-cleaning used by link
canonicalization). -/
def lexNorm (acc : AbsPath) : List (List Char) → AbsPath
  | [] => acc
  | c :: rest =>
    if c = strDotDot then lexNorm acc.dropLast rest
    else lexNorm (acc ++ [c]) rest

/-- Resolution of a symlink's raw target against the directory that
contains the link: an absolute target stands alone, a relative one is
lexically joined to the directory and normalized.  No filesystem access. -/
def linkAbs (dir : AbsPath) (t : List Char) : AbsPath :=
  if hasPre preSlash t then lexNorm [] (rawComponents t)
  else lexNorm dir (rawComponents t)

/-- Modelled from the spec (§4.2): `canonicalize_linkname` from
restore_symlink.rs, which is not among the provided sources.  Computes
the absolute path the link would denote: the parent of
`anchor/processed_name`, joined lexically with the link name. -/
def canonicalize_linkname (anchor : AbsPath) (processed_name : List Char)
    (linkname : List Char) : AbsPath :=
  linkAbs (anchor ++ (pathComponents processed_name).dropLast) linkname

/-- The lexical containment check for link targets (spec §4.5 step 3):
the anchor's components are a leading segment of the target's. -/
def contained (anchor p : AbsPath) : Bool := listPre anchor p

/-- Symlink-following fuel (the stat ELOOP bound); counted per walk step
in this model, so it also bounds the walk depth. -/
def linkFuel : Nat := 64

/-- Modelled from the spec (§4.4-§4.5 and scenarios S5/S6): the checked
walk that the entry restorers (restore_directory.rs / restore_regular.rs,
not among the provided sources) perform below the anchor before writing.
It walks the entry's components from the anchor, creating missing
directories (recorded in the write log); a symlink component is replaced
by its lexically canonicalized absolute target, which must stay inside
the anchor — otherwise the walk fails with `LinkOutsideOfDirectory`
carrying the raw link target (the S5/S6 error) — and the walk restarts
from the anchor on the target's own components so that chained links are
resolved and checked too. -/
def walkCreate (anchor : AbsPath) : Nat → St → AbsPath →
    List (List Char) → St × Outcome AbsPath
  | _, st, cur, [] => (st, .ok cur)
  | 0, st, _, _ :: _ => (st, .err (.Io msgLoop))
  | fuel + 1, st, cur, c :: rest' =>
    let p := cur ++ [c]
    match fsGet st.fs p with
    | some (.symlink t) =>
      let tgt := linkAbs cur t
      if contained anchor tgt then
        walkCreate anchor fuel st anchor (tgt.drop anchor.length ++ rest')
      else
        (st, .err (.LinkOutsideOfDirectory t))
    | some .dir => walkCreate anchor fuel st p rest'
    | some (.file _) => (st, .err (.Io msgNotDir))
    | none =>
      walkCreate anchor fuel
        { fs := fsSet st.fs p .dir, writes := p :: st.writes } p rest'

/-- Modelled from the spec (§4.5 step 4 and §9): the symlink-following
existence test (the stat analogue) on the model filesystem, fuel-bounded
against link loops.  `some (some n)` means the path denotes node `n`;
`some none` means some component is missing or a non-directory is
traversed; outer `none` is stat ELOOP (treated as non-existence by the
caller). -/
def resolveStat (fs : Fs) : Nat → AbsPath → List (List Char) →
    Option (Option FsNode)
  | fuel, cur, [] =>
    match fsGet fs cur with
    | some (.symlink t) =>
      match fuel with
      | 0 => none
      | fuel' + 1 => resolveStat fs fuel' [] (linkAbs cur.dropLast t)
    | other => some other
  | 0, _, _ :: _ => none
  | fuel + 1, cur, c :: rest' =>
    let p := cur ++ [c]
    match fsGet fs p with
    | some (.symlink t) => resolveStat fs fuel [] (linkAbs cur t ++ rest')
    | some .dir => resolveStat fs fuel p rest'
    | some (.file b) => if rest'.isEmpty then some (some (.file b)) else some none
    | none => some none

/-- Existence of the object a path denotes, following symlinks. -/
def statExists (fs : Fs) (p : AbsPath) : Bool :=
  match resolveStat fs linkFuel [] p with
  | some (some _) => true
  | _ => false

/-- A tar entry as yielded by the archive reader: a header plus the file
body bytes. -/
structure Entry where
  header : TarHeader
  body : List Nat
deriving DecidableEq, Repr

/-- Modelled from the spec (§4.5 `restore_directory`, not among the
provided sources): canonicalize the name, create the directory
(idempotent, creating missing ancestors), return the relative name. -/
def restore_directory (anchor : AbsPath) (st : St) (header : TarHeader) :
    St × Outcome (List Char) :=
  match canonicalize_name header.path with
  | .error e => (st, .err e)
  | .ok name =>
    match walkCreate anchor linkFuel st anchor (pathComponents name) with
    | (st', .ok _) => (st', .ok name)
    | (st', .err e) => (st', .err e)
    | (st', .panicked m) => (st', .panicked m)

/-- Modelled from the spec (§4.5 `restore_regular`, not among the
provided sources): canonicalize the name, resolve the parent directory
(which may pass through symlinks), fail with an "Is a directory" I/O
error when the target is an existing directory, then write the body. -/
def restore_regular (anchor : AbsPath) (st : St) (entry : Entry) :
    St × Outcome (List Char) :=
  match canonicalize_name entry.header.path with
  | .error e => (st, .err e)
  | .ok name =>
    match pathComponents name with
    | [] => (st, .err (.Io msgEmptyName))
    | c :: cs =>
      let parent := (c :: cs).dropLast
      let lastc := (c :: cs).getLastD []
      match walkCreate anchor linkFuel st anchor parent with
      | (st', .ok realParent) =>
        let target := realParent ++ [lastc]
        match fsGet st'.fs target with
        | some .dir => (st', .err (.Io msgIsDir))
        | _ =>
          ({ fs := fsSet st'.fs target (.file entry.body),
             writes := target :: st'.writes }, .ok name)
      | (st', .err e) => (st', .err e)
      | (st', .panicked m) => (st', .panicked m)

/-- Modelled from the spec (§4.5 `restore_symlink` and
`restore_symlink_with_missing_target`, not among the provided sources):
canonicalize the name and the link name, reject a target whose lexical
canonicalization leaves the anchor (`LinkOutsideOfDirectory` with the raw
link name), on the first pass defer when the target does not exist
(`LinkTargetDoesNotExist`), then create the symlink, clobbering.  The
missing-target second-pass variant skips only the existence check. -/
def restore_symlink_core (firstPass : Bool) (anchor : AbsPath) (st : St)
    (header : TarHeader) : St × Outcome (List Char) :=
  match canonicalize_name header.path with
  | .error e => (st, .err e)
  | .ok processed_name =>
    match header.linkName with
    | none => (st, .panicked msgLinkname)
    | some linkname =>
      let processed_linkname :=
        canonicalize_linkname anchor processed_name linkname
      if contained anchor processed_linkname = false then
        (st, .err (.LinkOutsideOfDirectory linkname))
      else if firstPass && !(statExists st.fs processed_linkname) then
        (st, .err (.LinkTargetDoesNotExist processed_name linkname))
      else
        match pathComponents processed_name with
        | [] => (st, .err (.Io msgEmptyName))
        | c :: cs =>
          let parent := (c :: cs).dropLast
          let lastc := (c :: cs).getLastD []
          match walkCreate anchor linkFuel st anchor parent with
          | (st', .ok realParent) =>
            let target := realParent ++ [lastc]
            ({ fs := fsSet st'.fs target (.symlink linkname),
               writes := target :: st'.writes }, .ok processed_name)
          | (st', .err e) => (st', .err e)
          | (st', .panicked m) => (st', .panicked m)

def restore_symlink (anchor : AbsPath) (st : St) (header : TarHeader) :
    St × Outcome (List Char) :=
  restore_symlink_core true anchor st header

def restore_symlink_with_missing_target (anchor : AbsPath) (st : St)
    (header : TarHeader) : St × Outcome (List Char) :=
  restore_symlink_core false anchor st header

/-- Translation of `restore_entry` (restore.rs lines 169-181): dispatch
on the tar entry type; anything but a directory, regular file or symlink
is `UnsupportedFileType`. -/
def restore_entry (anchor : AbsPath) (st : St) (entry : Entry) :
    St × Outcome (List Char) :=
  match entry.header.entryType with
  | .directory => restore_directory anchor st entry.header
  | .regular => restore_regular anchor st entry
  | .symlink => restore_symlink anchor st entry.header
  | ty => (st, .err (.UnsupportedFileType ty))

/-- Translation of the first-pass loop of `restore_entries` (restore.rs
lines 103-112): an entry failing with `LinkTargetDoesNotExist` is pushed
onto the deferred-symlink buffer and iteration continues; any other error
(or panic) aborts; a restored name is collected in order. -/
def firstPass (anchor : AbsPath) (st : St) :
    List Entry → St × Outcome (List (List Char) × List Entry)
  | [] => (st, .ok ([], []))
  | e :: es =>
    match restore_entry anchor st e with
    | (st', .err (.LinkTargetDoesNotExist _ _)) =>
      match firstPass anchor st' es with
      | (st'', .ok (restored, symlinks)) => (st'', .ok (restored, e :: symlinks))
      | (st'', .err err) => (st'', .err err)
      | (st'', .panicked m) => (st'', .panicked m)
    | (st', .err err) => (st', .err err)
    | (st', .panicked m) => (st', .panicked m)
    | (st', .ok name) =>
      match firstPass anchor st' es with
      | (st'', .ok (restored, symlinks)) => (st'', .ok (name :: restored, symlinks))
      | (st'', .err err) => (st'', .err err)
      | (st'', .panicked m) => (st'', .panicked m)

/-- The symlink dependency graph of `topologically_restore_symlinks`
(restore.rs lines 123-150), with nodes interned by canonicalized
absolute path (the petgraph node payloads) in insertion order, the
source-to-target edge list, and the clobbering `header_lookup` map. -/
structure SymGraph where
  nodes : List AbsPath
  edges : List (AbsPath × AbsPath)
  header_lookup : List (AbsPath × TarHeader)
deriving DecidableEq, Repr

/-- Node interning: `nodes.entry(key).or_insert_with(|| graph.add_node ...)`. -/
def internNode (nodes : List AbsPath) (p : AbsPath) : List AbsPath :=
  if p ∈ nodes then nodes else nodes ++ [p]

/-- `HashMap::insert`: the most recent binding for a key wins. -/
def lookupInsert (m : List (AbsPath × TarHeader)) (k : AbsPath)
    (v : TarHeader) : List (AbsPath × TarHeader) :=
  (k, v) :: m.filter (fun e => !decide (e.1 = k))

def lookupGet (m : List (AbsPath × TarHeader)) (k : AbsPath) :
    Option TarHeader :=
  (m.find? (fun e => decide (e.1 = k))).map (·.2)

/-- Translation of the graph-building loop of
`topologically_restore_symlinks` (restore.rs lines 128-150): for each
buffered entry, canonicalize its name, derive the canonicalized absolute
source (line 131 passes the processed name as its own link name), read
the link name (`expect`ing its presence — a panic when absent), intern
both endpoints, add a source-to-target edge, and clobber-insert the
header keyed by the absolute source. -/
def buildGraph (anchor : AbsPath) (g : SymGraph) :
    List Entry → Outcome SymGraph
  | [] => .ok g
  | e :: es =>
    match canonicalize_name e.header.path with
    | .error err => .err err
    | .ok processed_name =>
      let processed_sourcename :=
        canonicalize_linkname anchor processed_name processed_name
      match e.header.linkName with
      | none => .panicked msgLinkname
      | some linkname =>
        let processed_linkname :=
          canonicalize_linkname anchor processed_name linkname
        let nodes :=
          internNode (internNode g.nodes processed_sourcename) processed_linkname
        let edges := g.edges ++ [(processed_sourcename, processed_linkname)]
        let hl := lookupInsert g.header_lookup processed_sourcename e.header
        buildGraph anchor ⟨nodes, edges, hl⟩ es

/-- A node with no incoming edge from the remaining node set. -/
def noIncoming {α : Type} [DecidableEq α] (nodes : List α)
    (edges : List (α × α)) (n : α) : Bool :=
  !(edges.any (fun e => decide (e.2 = n) && decide (e.1 ∈ nodes)))

/-- Model of `petgraph::algo::toposort` (an external dependency, so
modelled by its documented contract: an order in which every edge's
source precedes its target, or failure exactly when the graph is cyclic)
as Kahn's algorithm: repeatedly remove a node without incoming edges;
`none` when stuck on a nonempty remainder. -/
def kahnAux {α : Type} [DecidableEq α] (edges : List (α × α)) :
    Nat → List α → Option (List α)
  | 0, nodes => if nodes = [] then some [] else none
  | fuel + 1, nodes =>
    if nodes = [] then some []
    else
      match nodes.find? (noIncoming nodes edges) with
      | none => none
      | some n =>
        match kahnAux edges fuel (nodes.erase n) with
        | none => none
        | some l => some (n :: l)

def kahn {α : Type} [DecidableEq α] (edges : List (α × α))
    (nodes : List α) : Option (List α) :=
  kahnAux edges nodes.length nodes

/-- The second-pass creation loop (restore.rs lines 155-163): walk the
topological order, restore the entry for every node present in the
header lookup, and collect the created names. -/
def restoreInOrder (anchor : AbsPath) (st : St)
    (hl : List (AbsPath × TarHeader)) :
    List AbsPath → St × Outcome (List (List Char))
  | [] => (st, .ok [])
  | n :: ns =>
    match lookupGet hl n with
    | none => restoreInOrder anchor st hl ns
    | some header =>
      match restore_symlink_with_missing_target anchor st header with
      | (st', .ok name) =>
        match restoreInOrder anchor st' hl ns with
        | (st'', .ok names) => (st'', .ok (name :: names))
        | (st'', .err e) => (st'', .err e)
        | (st'', .panicked m) => (st'', .panicked m)
      | (st', .err e) => (st', .err e)
      | (st', .panicked m) => (st', .panicked m)

/-- Translation of `topologically_restore_symlinks` (restore.rs lines
119-166): build the graph, topologically sort it (`CycleDetected` on
failure), then create the deferred symlinks in that order. -/
def topologically_restore_symlinks (anchor : AbsPath) (st : St)
    (symlinks : List Entry) : St × Outcome (List (List Char)) :=
  match buildGraph anchor ⟨[], [], []⟩ symlinks with
  | .err e => (st, .err e)
  | .panicked m => (st, .panicked m)
  | .ok g =>
    match kahn g.edges g.nodes with
    | none => (st, .err .CycleDetected)
    | some order => restoreInOrder anchor st g.header_lookup order

/-- Translation of `restore_entries` (restore.rs lines 94-117): first
pass over the stream, then the topological second pass, appending its
results. -/
def restore_entries (anchor : AbsPath) (st : St) (entries : List Entry) :
    St × Outcome (List (List Char)) :=
  match firstPass anchor st entries with
  | (st', .ok (restored, symlinks)) =>
    match topologically_restore_symlinks anchor st' symlinks with
    | (st'', .ok restored_symlinks) => (st'', .ok (restored ++ restored_symlinks))
    | (st'', .err e) => (st'', .err e)
    | (st'', .panicked m) => (st'', .panicked m)
  | (st', .err e) => (st', .err e)
  | (st', .panicked m) => (st', .panicked m)

/-- `fs::create_dir_all(anchor)` (restore.rs line 73): ensure the anchor
directory and its ancestors exist.  Anchor provisioning, not an entry
write, so nothing is added to the write log (spec §4.4 step 1). -/
def create_dir_all (fs : Fs) (p : AbsPath) : Fs :=
  p.inits.foldl
    (fun acc q => if (fsGet acc q).isSome then acc else fsSet acc q .dir) fs

/-- Translation of `CacheReader::restore` (restore.rs lines 68-93),
taking the already-parsed entry stream: ensure the anchor exists, then
run both restore passes. -/
def restore (anchor : AbsPath) (fs0 : Fs) (entries : List Entry) :
    St × Outcome (List (List Char)) :=
  restore_entries anchor { fs := create_dir_all fs0 anchor, writes := [] }
    entries

/-- Modelled from the spec (§7-§8): the user-visible display strings of
the error kinds, which live in the crate's error enum (not among the
provided sources).  Only the messages the scenarios pin down are
load-bearing. -/
def errorMessage : CacheError → List Char
  | .MalformedName n => "file name is malformed: ".data ++ n
  | .WindowsUnsafeName _ => "file name is not Windows-safe".data
  | .LinkTargetDoesNotExist _ t =>
      "attempted to restore symlink to nonexistent target: ".data ++ t
  | .LinkOutsideOfDirectory t =>
      "tar attempts to write outside of directory: ".data ++ t
  | .CycleDetected => "links in the cache are cyclic".data
  | .UnsupportedFileType _ => "attempted to restore unsupported file type".data
  | .Io m => "IO error: ".data ++ m
  | .NotRelative p => "path is not relative: ".data ++ p

end Turbo

namespace Turbo

def anchorT : AbsPath := [['t']]

def hdrSym (name target : List Char) : TarHeader :=
  { newGnuHeader with
      path := name
      entryType := .symlink
      linkName := some target }

def entSym (name target : List Char) : Entry := ⟨hdrSym name target, []⟩

def hdrFile (name : List Char) : TarHeader :=
  { newGnuHeader with
      path := name
      entryType := .regular }

def entFile (name : List Char) (body : List Nat) : Entry := ⟨hdrFile name, body⟩

def hdrDir (name : List Char) : TarHeader :=
  { newGnuHeader with
      path := name
      entryType := .directory }

def entDir (name : List Char) : Entry := ⟨hdrDir name, []⟩

def nOne : List Char := ['o', 'n', 'e']

def nTwo : List Char := ['t', 'w', 'o']

def nThree : List Char := ['t', 'h', 'r', 'e', 'e']

def nReal : List Char := ['r', 'e', 'a', 'l']

def nUp : List Char := ['u', 'p']

def nLink : List Char := ['l', 'i', 'n', 'k']

def nDotDotSl : List Char := [dotc, dotc, slash]

example :
    (restore anchorT []
      [entSym nOne nTwo, entSym nTwo nThree, entSym nThree nReal,
       entFile nReal [1]]).2 = .ok [nReal, nOne, nTwo, nThree] := by decide

example :
    (restore anchorT []
      [entSym nOne nTwo, entSym nOne nThree, entSym nOne nReal,
       entFile nReal [1]]).2 = .ok [nReal, nOne] := by decide

example :
    (restore anchorT []
      [entSym nOne nTwo, entSym nTwo nThree, entSym nThree nOne]).2 =
      .err .CycleDetected := by decide

example :
    (restore anchorT []
      [entSym ['e'] nDotDotSl, entFile ['e', slash, 'f'] [1]]).2 =
      .err (.LinkOutsideOfDirectory nDotDotSl) := by decide

example :
    (restore anchorT []
      [entSym nUp nDotDotSl, entSym nLink nUp,
       entFile (nLink ++ [slash, 'f']) [1]]).2 =
      .err (.LinkOutsideOfDirectory nDotDotSl) := by decide

theorem contained_refl (a : AbsPath) : contained a a = true := by
  rw [contained, listPre_iff]
  exact ⟨[], by simp⟩

theorem contained_extend (a p : AbsPath) (c : List Char)
    (h : contained a p = true) : contained a (p ++ [c]) = true := by
  rw [contained, listPre_iff] at h ⊢
  obtain ⟨t, rfl⟩ := h
  exact ⟨t ++ [c], by simp⟩

/-- Containment invariant of the checked walk: starting from a position
inside the anchor, every directory it creates and the position it returns
are inside the anchor, whatever the filesystem contains. -/
theorem walkCreate_contained (anchor : AbsPath) (fuel : Nat) (st : St)
    (cur : AbsPath) (rest : List (List Char))
    (hcur : contained anchor cur = true) :
    (∃ w, (walkCreate anchor fuel st cur rest).1.writes = w ++ st.writes ∧
      ∀ q ∈ w, contained anchor q = true) ∧
    (∀ r, (walkCreate anchor fuel st cur rest).2 = .ok r →
      contained anchor r = true) := by
  induction fuel generalizing st cur rest with
  | zero =>
    cases rest with
    | nil =>
      refine ⟨⟨[], by simp [walkCreate], by simp⟩, ?_⟩
      intro r hr
      simp only [walkCreate] at hr
      cases hr
      exact hcur
    | cons c rest' =>
      refine ⟨⟨[], by simp [walkCreate], by simp⟩, ?_⟩
      intro r hr
      simp only [walkCreate] at hr
      cases hr
  | succ fuel ih =>
    cases rest with
    | nil =>
      refine ⟨⟨[], by simp [walkCreate], by simp⟩, ?_⟩
      intro r hr
      simp only [walkCreate] at hr
      cases hr
      exact hcur
    | cons c rest' =>
      show _ ∧ _
      simp only [walkCreate]
      rcases hget : fsGet st.fs (cur ++ [c]) with _ | node
      · simp only [hget]
        have hpc : contained anchor (cur ++ [c]) = true :=
          contained_extend anchor cur c hcur
        obtain ⟨⟨w, hw, hwc⟩, hok⟩ :=
          ih { fs := fsSet st.fs (cur ++ [c]) FsNode.dir,
               writes := (cur ++ [c]) :: st.writes } (cur ++ [c]) rest' hpc
        refine ⟨⟨w ++ [cur ++ [c]], ?_, ?_⟩, hok⟩
        · simpa using hw
        · intro q hq
          rcases List.mem_append.mp hq with h1 | h1
          · exact hwc q h1
          · rcases List.mem_singleton.mp h1 with rfl
            exact hpc
      · cases node with
        | dir =>
          simp only [hget]
          exact ih st (cur ++ [c]) rest' (contained_extend anchor cur c hcur)
        | file b =>
          simp only [hget]
          exact ⟨⟨[], by simp, by simp⟩, by intro r hr; cases hr⟩
        | symlink t =>
          simp only [hget]
          by_cases hcont : contained anchor (linkAbs cur t) = true
          · simp only [hcont, if_true]
            exact ih st anchor ((linkAbs cur t).drop anchor.length ++ rest')
              (contained_refl anchor)
          · simp only [Bool.eq_false_iff.mpr hcont, if_false]
            exact ⟨⟨[], by simp, by simp⟩, by intro r hr; cases hr⟩

/-- State evolution in which every appended write stays inside the
anchor. -/
def Wec (anchor : AbsPath) (st st' : St) : Prop :=
  ∃ w, st'.writes = w ++ st.writes ∧ ∀ q ∈ w, contained anchor q = true

theorem wec_refl (anchor : AbsPath) (st : St) : Wec anchor st st :=
  ⟨[], rfl, by simp⟩

theorem wec_trans (anchor : AbsPath) (st st' st'' : St)
    (h1 : Wec anchor st st') (h2 : Wec anchor st' st'') :
    Wec anchor st st'' := by
  obtain ⟨w1, hw1, hc1⟩ := h1
  obtain ⟨w2, hw2, hc2⟩ := h2
  refine ⟨w2 ++ w1, by rw [hw2, hw1, List.append_assoc], ?_⟩
  intro q hq
  rcases List.mem_append.mp hq with h | h
  · exact hc2 q h
  · exact hc1 q h

theorem wec_walkCreate (anchor : AbsPath) (fuel : Nat) (st : St)
    (rest : List (List Char)) :
    Wec anchor st (walkCreate anchor fuel st anchor rest).1 :=
  (walkCreate_contained anchor fuel st anchor rest (contained_refl anchor)).1

theorem walkCreate_ok_contained (anchor : AbsPath) (fuel : Nat) (st : St)
    (rest : List (List Char)) (r : AbsPath)
    (h : (walkCreate anchor fuel st anchor rest).2 = .ok r) :
    contained anchor r = true :=
  (walkCreate_contained anchor fuel st anchor rest
    (contained_refl anchor)).2 r h

theorem wec_restore_directory (anchor : AbsPath) (st : St) (h : TarHeader) :
    Wec anchor st (restore_directory anchor st h).1 := by
  rw [restore_directory]
  rcases canonicalize_name h.path with e | name
  · exact wec_refl anchor st
  · dsimp only
    rcases hw : walkCreate anchor linkFuel st anchor (pathComponents name)
      with ⟨st', out⟩
    have hwec : Wec anchor st st' := by
      have := wec_walkCreate anchor linkFuel st (pathComponents name)
      rwa [hw] at this
    cases out <;> exact hwec

theorem wec_restore_regular (anchor : AbsPath) (st : St) (e : Entry) :
    Wec anchor st (restore_regular anchor st e).1 := by
  rw [restore_regular]
  rcases canonicalize_name e.header.path with err | name
  · exact wec_refl anchor st
  · dsimp only
    rcases hpc : pathComponents name with _ | ⟨c, cs⟩
    · exact wec_refl anchor st
    · dsimp only
      rcases hw : walkCreate anchor linkFuel st anchor ((c :: cs).dropLast)
        with ⟨st', out⟩
      have hwec : Wec anchor st st' := by
        have := wec_walkCreate anchor linkFuel st ((c :: cs).dropLast)
        rwa [hw] at this
      cases out with
      | ok realParent =>
        have hrp : contained anchor realParent = true := by
          have := walkCreate_ok_contained anchor linkFuel st
            ((c :: cs).dropLast) realParent
          rw [hw] at this
          exact this rfl
        dsimp only
        have hsingle : Wec anchor st'
            ⟨fsSet st'.fs (realParent ++ [(c :: cs).getLastD []])
              (FsNode.file e.body),
             (realParent ++ [(c :: cs).getLastD []]) :: st'.writes⟩ := by
          refine ⟨[realParent ++ [(c :: cs).getLastD []]], rfl, ?_⟩
          intro q hq
          rcases List.mem_singleton.mp hq with rfl
          exact contained_extend anchor realParent _ hrp
        rcases hget : fsGet st'.fs (realParent ++ [(c :: cs).getLastD []])
          with _ | nd
        · exact wec_trans anchor st st' _ hwec hsingle
        · cases nd with
          | dir => exact hwec
          | file b => exact wec_trans anchor st st' _ hwec hsingle
          | symlink t => exact wec_trans anchor st st' _ hwec hsingle
      | err e2 => exact hwec
      | panicked m => exact hwec

theorem wec_restore_symlink_core (fp : Bool) (anchor : AbsPath) (st : St)
    (h : TarHeader) :
    Wec anchor st (restore_symlink_core fp anchor st h).1 := by
  rw [restore_symlink_core]
  rcases canonicalize_name h.path with err | name
  · exact wec_refl anchor st
  · dsimp only
    rcases h.linkName with _ | linkname
    · exact wec_refl anchor st
    · dsimp only
      by_cases hcont :
          contained anchor (canonicalize_linkname anchor name linkname) = false
      · rw [if_pos hcont]
        exact wec_refl anchor st
      · rw [if_neg hcont]
        by_cases hex :
            (fp && !statExists st.fs
              (canonicalize_linkname anchor name linkname)) = true
        · rw [if_pos hex]
          exact wec_refl anchor st
        · rw [if_neg hex]
          rcases hpc : pathComponents name with _ | ⟨c, cs⟩
          · exact wec_refl anchor st
          · dsimp only
            rcases hw : walkCreate anchor linkFuel st anchor
              ((c :: cs).dropLast) with ⟨st', out⟩
            have hwec : Wec anchor st st' := by
              have := wec_walkCreate anchor linkFuel st ((c :: cs).dropLast)
              rwa [hw] at this
            cases out with
            | ok realParent =>
              have hrp : contained anchor realParent = true := by
                have := walkCreate_ok_contained anchor linkFuel st
                  ((c :: cs).dropLast) realParent
                rw [hw] at this
                exact this rfl
              refine wec_trans anchor st st' _ hwec
                ⟨[realParent ++ [(c :: cs).getLastD []]], rfl, ?_⟩
              intro q hq
              rcases List.mem_singleton.mp hq with rfl
              exact contained_extend anchor realParent _ hrp
            | err e2 => exact hwec
            | panicked m => exact hwec

theorem wec_restore_entry (anchor : AbsPath) (st : St) (e : Entry) :
    Wec anchor st (restore_entry anchor st e).1 := by
  rw [restore_entry]
  rcases hty : e.header.entryType
  · exact wec_restore_regular anchor st e
  · exact wec_restore_directory anchor st e.header
  · exact wec_restore_symlink_core true anchor st e.header
  · exact wec_refl anchor st
  · exact wec_refl anchor st

theorem wec_firstPass (anchor : AbsPath) (st : St) (es : List Entry) :
    Wec anchor st (firstPass anchor st es).1 := by
  induction es generalizing st with
  | nil => exact wec_refl anchor st
  | cons e es ih =>
    rw [firstPass]
    rcases hre : restore_entry anchor st e with ⟨st', out⟩
    have h1 : Wec anchor st st' := by
      have := wec_restore_entry anchor st e
      rwa [hre] at this
    cases out with
    | ok name =>
      dsimp only
      rcases hfp : firstPass anchor st' es with ⟨st'', out2⟩
      have h2 : Wec anchor st' st'' := by
        have := ih st'
        rwa [hfp] at this
      cases out2 with
      | ok pr =>
        rcases pr with ⟨r, sy⟩
        exact wec_trans anchor st st' st'' h1 h2
      | err e2 => exact wec_trans anchor st st' st'' h1 h2
      | panicked m => exact wec_trans anchor st st' st'' h1 h2
    | err e2 =>
      cases e2 with
      | LinkTargetDoesNotExist a b =>
        dsimp only
        rcases hfp : firstPass anchor st' es with ⟨st'', out2⟩
        have h2 : Wec anchor st' st'' := by
          have := ih st'
          rwa [hfp] at this
        cases out2 with
        | ok pr =>
          rcases pr with ⟨r, sy⟩
          exact wec_trans anchor st st' st'' h1 h2
        | err e2 => exact wec_trans anchor st st' st'' h1 h2
        | panicked m => exact wec_trans anchor st st' st'' h1 h2
      | MalformedName n => exact h1
      | WindowsUnsafeName n => exact h1
      | LinkOutsideOfDirectory t => exact h1
      | CycleDetected => exact h1
      | UnsupportedFileType t => exact h1
      | Io m => exact h1
      | NotRelative p => exact h1
    | panicked m => exact h1

theorem wec_restoreInOrder (anchor : AbsPath) (st : St)
    (hl : List (AbsPath × TarHeader)) (order : List AbsPath) :
    Wec anchor st (restoreInOrder anchor st hl order).1 := by
  induction order generalizing st with
  | nil => exact wec_refl anchor st
  | cons n ns ih =>
    rw [restoreInOrder]
    rcases lookupGet hl n with _ | header
    · exact ih st
    · dsimp only
      rcases hrs : restore_symlink_with_missing_target anchor st header
        with ⟨st', out⟩
      have h1 : Wec anchor st st' := by
        have := wec_restore_symlink_core false anchor st header
        rw [restore_symlink_with_missing_target] at hrs
        rwa [hrs] at this
      cases out with
      | ok name =>
        dsimp only
        rcases hro : restoreInOrder anchor st' hl ns with ⟨st'', out2⟩
        have h2 : Wec anchor st' st'' := by
          have := ih st'
          rwa [hro] at this
        cases out2 with
        | ok names => exact wec_trans anchor st st' st'' h1 h2
        | err e2 => exact wec_trans anchor st st' st'' h1 h2
        | panicked m => exact wec_trans anchor st st' st'' h1 h2
      | err e2 => exact h1
      | panicked m => exact h1

theorem wec_topologically_restore_symlinks (anchor : AbsPath) (st : St)
    (symlinks : List Entry) :
    Wec anchor st (topologically_restore_symlinks anchor st symlinks).1 := by
  rw [topologically_restore_symlinks]
  rcases buildGraph anchor ⟨[], [], []⟩ symlinks with g | e | m
  · dsimp only
    rcases kahn g.edges g.nodes with _ | order
    · exact wec_refl anchor st
    · exact wec_restoreInOrder anchor st g.header_lookup order
  · exact wec_refl anchor st
  · exact wec_refl anchor st

theorem wec_restore_entries (anchor : AbsPath) (st : St)
    (entries : List Entry) :
    Wec anchor st (restore_entries anchor st entries).1 := by
  rw [restore_entries]
  rcases hfp : firstPass anchor st entries with ⟨st', out⟩
  have h1 : Wec anchor st st' := by
    have := wec_firstPass anchor st entries
    rwa [hfp] at this
  cases out with
  | ok pr =>
    rcases pr with ⟨r, sy⟩
    dsimp only
    rcases hts : topologically_restore_symlinks anchor st' sy with ⟨st'', out2⟩
    have h2 : Wec anchor st' st'' := by
      have := wec_topologically_restore_symlinks anchor st' sy
      rwa [hts] at this
    cases out2 with
    | ok names => exact wec_trans anchor st st' st'' h1 h2
    | err e2 => exact wec_trans anchor st st' st'' h1 h2
    | panicked m => exact wec_trans anchor st st' st'' h1 h2
  | err e2 => exact h1
  | panicked m => exact h1

/-- C1: on-disk writes performed by restore (file, directory or symlink
creation, recorded at their resolved real paths, which pass through
symlinks created earlier in the same restore) never land outside the
anchor subtree; and a symlink entry whose lexically canonicalized target
escapes the anchor makes the restorer fail with `LinkOutsideOfDirectory`
carrying the raw link name (whose display string is the S5/S6 message),
on either pass, without mutating anything. -/
theorem restore_contained_C1 :
    (∀ (anchor : AbsPath) (fs0 : Fs) (entries : List Entry),
      ∀ q ∈ (restore anchor fs0 entries).1.writes,
        contained anchor q = true) ∧
    (∀ (fp : Bool) (anchor : AbsPath) (st : St) (hdr : TarHeader)
        (name linkname : List Char),
      canonicalize_name hdr.path = .ok name →
      hdr.linkName = some linkname →
      contained anchor (canonicalize_linkname anchor name linkname) = false →
      restore_symlink_core fp anchor st hdr =
        (st, .err (.LinkOutsideOfDirectory linkname))) ∧
    errorMessage (.LinkOutsideOfDirectory nDotDotSl) =
      "tar attempts to write outside of directory: ../".data := by
  refine ⟨?_, ?_, by decide⟩
  · intro anchor fs0 entries q hq
    rw [restore] at hq
    obtain ⟨w, hw, hc⟩ := wec_restore_entries anchor
      { fs := create_dir_all fs0 anchor, writes := [] } entries
    rw [hw] at hq
    rcases List.mem_append.mp hq with h | h
    · exact hc q h
    · cases h
  · intro fp anchor st hdr name linkname hcanon hlink hcont
    rw [restore_symlink_core, hcanon]
    dsimp only
    rw [hlink]
    dsimp only
    rw [if_pos hcont]

/-- Witness for C1's conditional part: the S5 escaping symlink
`e -> ../` under a one-component anchor. -/
theorem restore_contained_C1_witness :
    restore_symlink_core true anchorT ⟨[], []⟩ (hdrSym ['e'] nDotDotSl) =
      (⟨[], []⟩, .err (.LinkOutsideOfDirectory nDotDotSl)) :=
  restore_contained_C1.2.1 true anchorT ⟨[], []⟩ (hdrSym ['e'] nDotDotSl)
    ['e'] nDotDotSl (by decide) rfl (by decide)

theorem canonicalize_malformed (n : List Char)
    (h : (check_name n).well_formed = false) :
    canonicalize_name n = .error (.MalformedName n) := by
  rw [canonicalize_name]
  dsimp only
  rw [if_pos h]

theorem canonicalize_wf_ok (n : List Char)
    (h : (check_name n).well_formed = true) :
    canonicalize_name n = .ok (joinSlash (pathComponents n)) := by
  obtain ⟨hne, hgood⟩ := wf_pathComponents_good n h
  have habs := (wf_checks _ (check_name_joinSlash_good (pathComponents n)
    hne hgood)).2.2.2.1
  rw [canonicalize_name]
  dsimp only
  rw [if_neg (by rw [h]; intro hc; cases hc), if_neg (by rw [habs]; intro hc; cases hc)]

theorem restore_entry_malformed (anchor : AbsPath) (st : St) (e : Entry)
    (hbad : (check_name e.header.path).well_formed = false) :
    restore_entry anchor st e = (st, .err (.MalformedName e.header.path)) ∨
    ∃ t, restore_entry anchor st e = (st, .err (.UnsupportedFileType t)) := by
  have hcanon := canonicalize_malformed e.header.path hbad
  rw [restore_entry]
  rcases hty : e.header.entryType
  · left
    rw [restore_regular, hcanon]
  · left
    rw [restore_directory, hcanon]
  · left
    rw [restore_symlink, restore_symlink_core, hcanon]
  · exact Or.inr ⟨.fifo, rfl⟩
  · exact Or.inr ⟨.other, rfl⟩

theorem firstPass_malformed_not_ok (anchor : AbsPath) (st : St)
    (es : List Entry) (e : Entry) (he : e ∈ es)
    (hbad : (check_name e.header.path).well_formed = false) :
    ∀ pr, (firstPass anchor st es).2 ≠ .ok pr := by
  induction es generalizing st with
  | nil => cases he
  | cons e0 es ih =>
    intro pr hok
    rw [firstPass] at hok
    rcases List.mem_cons.mp he with rfl | hmem
    · rcases restore_entry_malformed anchor st e hbad with h | ⟨t, h⟩ <;>
        rw [h] at hok <;> cases hok
    · rcases hre : restore_entry anchor st e0 with ⟨st', out⟩
      rw [hre] at hok
      cases out with
      | ok name =>
        dsimp only at hok
        rcases hfp : firstPass anchor st' es with ⟨st'', out2⟩
        rw [hfp] at hok
        cases out2 with
        | ok pr2 =>
          rcases pr2 with ⟨r, sy⟩
          have := ih st' hmem (r, sy)
          rw [hfp] at this
          exact this rfl
        | err e2 => cases hok
        | panicked m => cases hok
      | err e2 =>
        cases e2 with
        | LinkTargetDoesNotExist a b =>
          dsimp only at hok
          rcases hfp : firstPass anchor st' es with ⟨st'', out2⟩
          rw [hfp] at hok
          cases out2 with
          | ok pr2 =>
            rcases pr2 with ⟨r, sy⟩
            have := ih st' hmem (r, sy)
            rw [hfp] at this
            exact this rfl
          | err e3 => cases hok
          | panicked m => cases hok
        | MalformedName n => cases hok
        | WindowsUnsafeName n => cases hok
        | LinkOutsideOfDirectory t => cases hok
        | CycleDetected => cases hok
        | UnsupportedFileType t => cases hok
        | Io m => cases hok
        | NotRelative p => cases hok
      | panicked m => cases hok

/-- C4: a name rejected by `check_name` makes `canonicalize_name` fail
with `MalformedName` carrying that name (whose display string is
"file name is malformed: N"); a restore of any archive containing an
entry so named never succeeds, and when restore reaches such an entry of
a supported kind it stops with exactly that error and an unchanged
filesystem state (no mutation persisted at that entry); conversely a
well-formed name canonicalizes successfully on a POSIX host. -/
theorem malformed_name_restore_C4 :
    (∀ n : List Char, (check_name n).well_formed = false →
      canonicalize_name n = .error (.MalformedName n)) ∧
    (∀ (anchor : AbsPath) (st : St) (e : Entry),
      (check_name e.header.path).well_formed = false →
      (e.header.entryType = .regular ∨ e.header.entryType = .directory ∨
        e.header.entryType = .symlink) →
      restore_entry anchor st e = (st, .err (.MalformedName e.header.path))) ∧
    (∀ (anchor : AbsPath) (fs0 : Fs) (entries : List Entry) (e : Entry),
      e ∈ entries → (check_name e.header.path).well_formed = false →
      ∀ r, (restore anchor fs0 entries).2 ≠ .ok r) ∧
    (∀ n : List Char, errorMessage (.MalformedName n) =
      "file name is malformed: ".data ++ n) ∧
    (∀ n : List Char, (check_name n).well_formed = true →
      canonicalize_name n = .ok (joinSlash (pathComponents n))) := by
  refine ⟨canonicalize_malformed, ?_, ?_, fun n => rfl, canonicalize_wf_ok⟩
  · intro anchor st e hbad hsupp
    have hcanon := canonicalize_malformed e.header.path hbad
    rw [restore_entry]
    rcases hsupp with hty | hty | hty <;> rw [hty]
    · rw [restore_regular, hcanon]
    · rw [restore_directory, hcanon]
    · rw [restore_symlink, restore_symlink_core, hcanon]
  · intro anchor fs0 entries e he hbad r hok
    rw [restore, restore_entries] at hok
    rcases hfp : firstPass anchor
      { fs := create_dir_all fs0 anchor, writes := [] } entries with ⟨st', out⟩
    rw [hfp] at hok
    cases out with
    | ok pr =>
      rcases pr with ⟨rst, sy⟩
      have := firstPass_malformed_not_ok anchor
        { fs := create_dir_all fs0 anchor, writes := [] } entries e he hbad
        (rst, sy)
      rw [hfp] at this
      exact this rfl
    | err e2 => cases hok
    | panicked m => cases hok

def nEscape : List Char := [dotc, dotc, slash, 'e', 's', 'c', 'a', 'p', 'e']

/-- Witness for C4 at the S10 name "../escape" on a regular-file entry. -/
theorem malformed_name_restore_C4_witness :
    restore_entry anchorT ⟨[], []⟩ (entFile nEscape []) =
      (⟨[], []⟩, .err (.MalformedName nEscape)) :=
  malformed_name_restore_C4.2.1 anchorT ⟨[], []⟩ (entFile nEscape [])
    (by decide) (Or.inl rfl)

theorem canonicalize_err_shape (n : List Char) (e : CacheError)
    (h : canonicalize_name n = .error e) :
    (∃ m, e = .MalformedName m) ∨ ∃ p, e = .NotRelative p := by
  rw [canonicalize_name] at h
  dsimp only at h
  by_cases h1 : (check_name n).well_formed = false
  · rw [if_pos h1] at h
    cases h
    exact Or.inl ⟨n, rfl⟩
  · rw [if_neg h1] at h
    by_cases h2 : hasPre preSlash (joinSlash (pathComponents n)) = true
    · rw [if_pos h2] at h
      cases h
      exact Or.inr ⟨_, rfl⟩
    · rw [if_neg h2] at h
      cases h

theorem walkCreate_err_shape (anchor : AbsPath) (fuel : Nat) (st : St)
    (cur : AbsPath) (rest : List (List Char)) :
    ∀ out, (walkCreate anchor fuel st cur rest).2 = out →
      (∃ r, out = .ok r) ∨ out = .err (.Io msgLoop) ∨
      out = .err (.Io msgNotDir) ∨
      ∃ t, out = .err (.LinkOutsideOfDirectory t) := by
  induction fuel generalizing st cur rest with
  | zero =>
    intro out hout
    cases rest with
    | nil =>
      rw [walkCreate] at hout
      exact Or.inl ⟨cur, hout.symm⟩
    | cons c rest' =>
      rw [walkCreate] at hout
      exact Or.inr (Or.inl hout.symm)
  | succ fuel ih =>
    intro out hout
    cases rest with
    | nil =>
      rw [walkCreate] at hout
      exact Or.inl ⟨cur, hout.symm⟩
    | cons c rest' =>
      rw [walkCreate] at hout
      rcases hget : fsGet st.fs (cur ++ [c]) with _ | nd
      · rw [hget] at hout
        exact ih _ _ _ out hout
      · rw [hget] at hout
        cases nd with
        | dir => exact ih _ _ _ out hout
        | file b => exact Or.inr (Or.inr (Or.inl hout.symm))
        | symlink t =>
          dsimp only at hout
          by_cases hcont : contained anchor (linkAbs cur t) = true
          · rw [if_pos hcont] at hout
            exact ih _ _ _ out hout
          · rw [if_neg hcont] at hout
            exact Or.inr (Or.inr (Or.inr ⟨t, hout.symm⟩))

theorem restore_symlink_core_second_no_ltdne (anchor : AbsPath) (st : St)
    (h : TarHeader) (a b : List Char) :
    (restore_symlink_core false anchor st h).2 ≠
      .err (.LinkTargetDoesNotExist a b) := by
  intro hout
  rw [restore_symlink_core] at hout
  rcases hcanon : canonicalize_name h.path with e | name
  · rw [hcanon] at hout
    rcases canonicalize_err_shape h.path e
        (by rw [hcanon]) with ⟨m, rfl⟩ | ⟨p, rfl⟩ <;> cases hout
  · rw [hcanon] at hout
    dsimp only at hout
    rcases hln : h.linkName with _ | linkname
    · rw [hln] at hout
      cases hout
    · rw [hln] at hout
      dsimp only at hout
      by_cases hcont :
          contained anchor (canonicalize_linkname anchor name linkname) = false
      · rw [if_pos hcont] at hout
        cases hout
      · rw [if_neg hcont] at hout
        rw [if_neg (by simp)] at hout
        rcases hpc : pathComponents name with _ | ⟨c, cs⟩
        · rw [hpc] at hout
          cases hout
        · rw [hpc] at hout
          dsimp only at hout
          rcases hw : walkCreate anchor linkFuel st anchor ((c :: cs).dropLast)
            with ⟨st', out2⟩
          rw [hw] at hout
          cases out2 with
          | ok r => cases hout
          | err e2 =>
            dsimp only at hout
            have he2 : e2 = .LinkTargetDoesNotExist a b := by
              cases hout
              rfl
            subst he2
            rcases walkCreate_err_shape anchor linkFuel st anchor
                ((c :: cs).dropLast) (.err (.LinkTargetDoesNotExist a b))
                (by rw [hw]) with ⟨r, hr⟩ | hr | hr | ⟨t, hr⟩ <;> cases hr
          | panicked m => cases hout

theorem buildGraph_err_shape (anchor : AbsPath) (es : List Entry)
    (g : SymGraph) (e : CacheError) (h : buildGraph anchor g es = .err e) :
    (∃ m, e = .MalformedName m) ∨ ∃ p, e = .NotRelative p := by
  induction es generalizing g with
  | nil =>
    rw [buildGraph] at h
    cases h
  | cons e0 es ih =>
    rw [buildGraph] at h
    rcases hcanon : canonicalize_name e0.header.path with err | name
    · rw [hcanon] at h
      cases h
      exact canonicalize_err_shape e0.header.path _ (by rw [hcanon])
    · rw [hcanon] at h
      dsimp only at h
      rcases hln : e0.header.linkName with _ | linkname
      · rw [hln] at h
        cases h
      · rw [hln] at h
        exact ih _ h

theorem restoreInOrder_no_ltdne (anchor : AbsPath) (st : St)
    (hl : List (AbsPath × TarHeader)) (order : List AbsPath)
    (a b : List Char) :
    (restoreInOrder anchor st hl order).2 ≠
      .err (.LinkTargetDoesNotExist a b) := by
  induction order generalizing st with
  | nil =>
    rw [restoreInOrder]
    intro h
    cases h
  | cons n ns ih =>
    rw [restoreInOrder]
    rcases lookupGet hl n with _ | header
    · exact ih st
    · dsimp only
      rcases hrs : restore_symlink_with_missing_target anchor st header
        with ⟨st', out⟩
      cases out with
      | ok name =>
        dsimp only
        rcases hro : restoreInOrder anchor st' hl ns with ⟨st'', out2⟩
        cases out2 with
        | ok names =>
          intro h
          cases h
        | err e2 =>
          intro h
          have := ih st'
          rw [hro] at this
          exact this (by cases h; rfl)
        | panicked m =>
          intro h
          cases h
      | err e2 =>
        intro h
        have he2 : e2 = .LinkTargetDoesNotExist a b := by
          cases h
          rfl
        subst he2
        have := restore_symlink_core_second_no_ltdne anchor st header a b
        rw [restore_symlink_with_missing_target] at hrs
        rw [hrs] at this
        exact this rfl
      | panicked m =>
        intro h
        cases h

theorem topological_no_ltdne (anchor : AbsPath) (st : St)
    (symlinks : List Entry) (a b : List Char) :
    (topologically_restore_symlinks anchor st symlinks).2 ≠
      .err (.LinkTargetDoesNotExist a b) := by
  rw [topologically_restore_symlinks]
  rcases hbg : buildGraph anchor ⟨[], [], []⟩ symlinks with g | e | m
  · dsimp only
    rcases kahn g.edges g.nodes with _ | order
    · intro h
      cases h
    · exact restoreInOrder_no_ltdne anchor st g.header_lookup order a b
  · intro h
    have he : e = .LinkTargetDoesNotExist a b := by
      cases h
      rfl
    subst he
    rcases buildGraph_err_shape anchor symlinks _ _ hbg with ⟨m, hm⟩ | ⟨p, hp⟩
    · cases hm
    · cases hp
  · intro h
    cases h

theorem firstPass_no_ltdne (anchor : AbsPath) (st : St) (es : List Entry)
    (a b : List Char) :
    (firstPass anchor st es).2 ≠ .err (.LinkTargetDoesNotExist a b) := by
  induction es generalizing st with
  | nil =>
    intro h
    cases h
  | cons e es ih =>
    rw [firstPass]
    rcases hre : restore_entry anchor st e with ⟨st', out⟩
    cases out with
    | ok name =>
      dsimp only
      rcases hfp : firstPass anchor st' es with ⟨st'', out2⟩
      cases out2 with
      | ok pr =>
        rcases pr with ⟨r, sy⟩
        intro h
        cases h
      | err e2 =>
        intro h
        have := ih st'
        rw [hfp] at this
        exact this (by cases h; rfl)
      | panicked m =>
        intro h
        cases h
    | err e2 =>
      cases e2 with
      | LinkTargetDoesNotExist x y =>
        dsimp only
        rcases hfp : firstPass anchor st' es with ⟨st'', out2⟩
        cases out2 with
        | ok pr =>
          rcases pr with ⟨r, sy⟩
          intro h
          cases h
        | err e3 =>
          intro h
          have := ih st'
          rw [hfp] at this
          exact this (by cases h; rfl)
        | panicked m =>
          intro h
          cases h
      | MalformedName n => intro h; cases h
      | WindowsUnsafeName n => intro h; cases h
      | LinkOutsideOfDirectory t => intro h; cases h
      | CycleDetected => intro h; cases h
      | UnsupportedFileType t => intro h; cases h
      | Io m => intro h; cases h
      | NotRelative p => intro h; cases h
    | panicked m =>
      intro h
      cases h

/-- C6: `LinkTargetDoesNotExist` never surfaces from restore; inside the
first pass such an error buffers the entry for the second pass without
propagating, while every other entry error aborts the pass and is
returned immediately, the remaining entries untouched. -/
theorem ltdne_never_surfaces_C6 :
    (∀ (anchor : AbsPath) (fs0 : Fs) (entries : List Entry)
        (a b : List Char),
      (restore anchor fs0 entries).2 ≠ .err (.LinkTargetDoesNotExist a b)) ∧
    (∀ (anchor : AbsPath) (st st' : St) (e : Entry) (es : List Entry)
        (a b : List Char),
      restore_entry anchor st e = (st', .err (.LinkTargetDoesNotExist a b)) →
      ∀ st'' r sy, firstPass anchor st' es = (st'', .ok (r, sy)) →
        firstPass anchor st (e :: es) = (st'', .ok (r, e :: sy))) ∧
    (∀ (anchor : AbsPath) (st st' : St) (e : Entry) (es : List Entry)
        (err : CacheError),
      restore_entry anchor st e = (st', .err err) →
      (∀ a b, err ≠ .LinkTargetDoesNotExist a b) →
      firstPass anchor st (e :: es) = (st', .err err)) := by
  refine ⟨?_, ?_, ?_⟩
  · intro anchor fs0 entries a b h
    rw [restore, restore_entries] at h
    rcases hfp : firstPass anchor
      { fs := create_dir_all fs0 anchor, writes := [] } entries with ⟨st', out⟩
    rw [hfp] at h
    cases out with
    | ok pr =>
      rcases pr with ⟨r, sy⟩
      dsimp only at h
      rcases hts : topologically_restore_symlinks anchor st' sy
        with ⟨st'', out2⟩
      rw [hts] at h
      cases out2 with
      | ok names => cases h
      | err e2 =>
        have := topological_no_ltdne anchor st' sy a b
        rw [hts] at this
        exact this (by cases h; rfl)
      | panicked m => cases h
    | err e2 =>
      have := firstPass_no_ltdne anchor
        { fs := create_dir_all fs0 anchor, writes := [] } entries a b
      rw [hfp] at this
      exact this (by cases h; rfl)
    | panicked m => cases h
  · intro anchor st st' e es a b hre st'' r sy hfp
    rw [firstPass, hre]
    dsimp only
    rw [hfp]
  · intro anchor st st' e es err hre hne
    rw [firstPass, hre]
    cases err with
    | LinkTargetDoesNotExist a b => exact absurd rfl (hne a b)
    | MalformedName n => rfl
    | WindowsUnsafeName n => rfl
    | LinkOutsideOfDirectory t => rfl
    | CycleDetected => rfl
    | UnsupportedFileType t => rfl
    | Io m => rfl
    | NotRelative p => rfl

/-- Witness for C6: a malformed-name entry aborts the first pass
immediately with its own error. -/
theorem ltdne_never_surfaces_C6_witness :
    firstPass anchorT ⟨[], []⟩ [entFile nEscape [], entDir ['d']] =
      (⟨[], []⟩, .err (.MalformedName nEscape)) :=
  ltdne_never_surfaces_C6.2.2 anchorT ⟨[], []⟩ ⟨[], []⟩ (entFile nEscape [])
    [entDir ['d']] (.MalformedName nEscape) (by decide)
    (fun a b h => by cases h)

theorem walkCreate_no_panic (anchor : AbsPath) (fuel : Nat) (st : St)
    (cur : AbsPath) (rest : List (List Char)) (m : List Char) :
    (walkCreate anchor fuel st cur rest).2 ≠ .panicked m := by
  intro h
  rcases walkCreate_err_shape anchor fuel st cur rest _ h with
    ⟨r, hr⟩ | hr | hr | ⟨t, hr⟩ <;> cases hr

theorem restore_symlink_core_no_panic (fp : Bool) (anchor : AbsPath)
    (st : St) (h : TarHeader) (ln : List Char) (hln : h.linkName = some ln)
    (m : List Char) :
    (restore_symlink_core fp anchor st h).2 ≠ .panicked m := by
  intro hout
  rw [restore_symlink_core] at hout
  rcases hcanon : canonicalize_name h.path with e | name
  · rw [hcanon] at hout
    cases hout
  · rw [hcanon] at hout
    dsimp only at hout
    rw [hln] at hout
    dsimp only at hout
    by_cases hcont :
        contained anchor (canonicalize_linkname anchor name ln) = false
    · rw [if_pos hcont] at hout
      cases hout
    · rw [if_neg hcont] at hout
      by_cases hex : (fp && !statExists st.fs
          (canonicalize_linkname anchor name ln)) = true
      · rw [if_pos hex] at hout
        cases hout
      · rw [if_neg hex] at hout
        rcases hpc : pathComponents name with _ | ⟨c, cs⟩
        · rw [hpc] at hout
          cases hout
        · rw [hpc] at hout
          dsimp only at hout
          rcases hw : walkCreate anchor linkFuel st anchor ((c :: cs).dropLast)
            with ⟨st', out2⟩
          rw [hw] at hout
          cases out2 with
          | ok r => cases hout
          | err e2 => cases hout
          | panicked m2 =>
            have := walkCreate_no_panic anchor linkFuel st anchor
              ((c :: cs).dropLast) m2
            rw [hw] at this
            exact this rfl

theorem mem_lookupInsert (m : List (AbsPath × TarHeader)) (k : AbsPath)
    (v : TarHeader) (kv : AbsPath × TarHeader)
    (h : kv ∈ lookupInsert m k v) : kv = (k, v) ∨ kv ∈ m := by
  rw [lookupInsert] at h
  rcases List.mem_cons.mp h with h1 | h1
  · exact Or.inl h1
  · exact Or.inr (List.mem_of_mem_filter h1)

theorem buildGraph_lookup_from (anchor : AbsPath) (es : List Entry)
    (g g' : SymGraph) (h : buildGraph anchor g es = .ok g') :
    ∀ kv ∈ g'.header_lookup,
      kv ∈ g.header_lookup ∨ ∃ e ∈ es, kv.2 = e.header := by
  induction es generalizing g with
  | nil =>
    rw [buildGraph] at h
    cases h
    exact fun kv hkv => Or.inl hkv
  | cons e0 es ih =>
    rw [buildGraph] at h
    rcases hcanon : canonicalize_name e0.header.path with err | name
    · rw [hcanon] at h
      cases h
    · rw [hcanon] at h
      dsimp only at h
      rcases hln : e0.header.linkName with _ | linkname
      · rw [hln] at h
        cases h
      · rw [hln] at h
        intro kv hkv
        rcases ih _ h kv hkv with h1 | ⟨e, he, hh⟩
        · rcases mem_lookupInsert _ _ _ kv h1 with h2 | h2
          · right
            exact ⟨e0, List.mem_cons_self e0 es, by rw [h2]⟩
          · exact Or.inl h2
        · exact Or.inr ⟨e, List.mem_cons.mpr (Or.inr he), hh⟩

theorem buildGraph_no_panic (anchor : AbsPath) (es : List Entry)
    (g : SymGraph) (hsome : ∀ e ∈ es, e.header.linkName ≠ none)
    (m : List Char) : buildGraph anchor g es ≠ .panicked m := by
  induction es generalizing g with
  | nil =>
    rw [buildGraph]
    intro h
    cases h
  | cons e0 es ih =>
    rw [buildGraph]
    rcases hcanon : canonicalize_name e0.header.path with err | name
    · intro h
      cases h
    · dsimp only
      rcases hln : e0.header.linkName with _ | linkname
      · exact absurd hln (hsome e0 (List.mem_cons_self e0 es))
      · exact ih _ (fun e he => hsome e (List.mem_cons.mpr (Or.inr he)))

theorem restoreInOrder_no_panic (anchor : AbsPath) (st : St)
    (hl : List (AbsPath × TarHeader)) (order : List AbsPath)
    (hsome : ∀ kv ∈ hl, kv.2.linkName ≠ none) (m : List Char) :
    (restoreInOrder anchor st hl order).2 ≠ .panicked m := by
  induction order generalizing st with
  | nil =>
    rw [restoreInOrder]
    intro h
    cases h
  | cons n ns ih =>
    rw [restoreInOrder]
    rcases hlk : lookupGet hl n with _ | header
    · exact ih st
    · dsimp only
      have hmem : (n, header).2.linkName ≠ none := by
        rw [lookupGet] at hlk
        rcases hfind : hl.find? (fun e => decide (e.1 = n)) with _ | kv
        · rw [hfind] at hlk
          cases hlk
        · rw [hfind] at hlk
          have hkv : kv ∈ hl := List.mem_of_find?_eq_some hfind
          have h2 : kv.2 = header := by
            cases hlk
            rfl
          have hkv1 : kv.1 = n := by
            have := List.find?_some hfind
            simpa using this
          have := hsome kv hkv
          rw [h2] at this
          exact this
      obtain ⟨ln, hln⟩ : ∃ ln, header.linkName = some ln := by
        rcases hln : header.linkName with _ | ln
        · exact absurd hln hmem
        · exact ⟨ln, rfl⟩
      rcases hrs : restore_symlink_with_missing_target anchor st header
        with ⟨st', out⟩
      cases out with
      | ok name =>
        dsimp only
        rcases hro : restoreInOrder anchor st' hl ns with ⟨st'', out2⟩
        cases out2 with
        | ok names =>
          intro h
          cases h
        | err e2 =>
          intro h
          cases h
        | panicked m2 =>
          intro h
          have := ih st'
          rw [hro] at this
          exact this (by cases h; rfl)
      | err e2 =>
        intro h
        cases h
      | panicked m2 =>
        intro h
        have := restore_symlink_core_no_panic false anchor st header ln hln m2
        rw [restore_symlink_with_missing_target] at hrs
        rw [hrs] at this
        exact this (by cases h; rfl)

theorem buildGraph_panics (anchor : AbsPath) (es : List Entry) (g : SymGraph)
    (hwf : ∀ e ∈ es, (check_name e.header.path).well_formed = true)
    (hsome : ∃ e ∈ es, e.header.linkName = none) :
    buildGraph anchor g es = .panicked msgLinkname := by
  induction es generalizing g with
  | nil =>
    obtain ⟨e, he, -⟩ := hsome
    cases he
  | cons e0 es ih =>
    rw [buildGraph]
    rw [canonicalize_wf_ok e0.header.path (hwf e0 (List.mem_cons_self e0 es))]
    dsimp only
    rcases hln : e0.header.linkName with _ | linkname
    · rfl
    · obtain ⟨e, he, hnone⟩ := hsome
      rcases List.mem_cons.mp he with rfl | hmem
      · rw [hln] at hnone
        cases hnone
      · exact ih _ (fun e2 he2 => hwf e2 (List.mem_cons.mpr (Or.inr he2)))
          ⟨e, hmem, hnone⟩

/-- C10: when a buffered symlink entry lacks a link name (and every
buffered name is well-formed, so processing reaches the `expect`), the
second pass panics with "symlink without linkname" rather than returning
an error; conversely, when every buffered entry carries a link name, the
panic branch is unreachable and `topologically_restore_symlinks` never
panics. -/
theorem symlink_linkname_panic_C10 :
    (∀ (anchor : AbsPath) (st : St) (symlinks : List Entry),
      (∀ e ∈ symlinks, (check_name e.header.path).well_formed = true) →
      (∃ e ∈ symlinks, e.header.linkName = none) →
      (topologically_restore_symlinks anchor st symlinks).2 =
        .panicked msgLinkname) ∧
    (∀ (anchor : AbsPath) (st : St) (symlinks : List Entry),
      (∀ e ∈ symlinks, e.header.linkName ≠ none) →
      ∀ m, (topologically_restore_symlinks anchor st symlinks).2 ≠
        .panicked m) := by
  constructor
  · intro anchor st symlinks hwf hsome
    rw [topologically_restore_symlinks,
      buildGraph_panics anchor symlinks _ hwf hsome]
  · intro anchor st symlinks hsome m
    rw [topologically_restore_symlinks]
    rcases hbg : buildGraph anchor ⟨[], [], []⟩ symlinks with g | e | m2
    · dsimp only
      rcases kahn g.edges g.nodes with _ | order
      · intro h
        cases h
      · refine restoreInOrder_no_panic anchor st g.header_lookup order ?_ m
        intro kv hkv
        rcases buildGraph_lookup_from anchor symlinks _ _ hbg kv hkv with
          h1 | ⟨e, he, hh⟩
        · cases h1
        · rw [hh]
          exact hsome e he
    · intro h
      cases h
    · exact absurd hbg (buildGraph_no_panic anchor symlinks _ hsome m2)

def entNoLink : Entry :=
  ⟨{ newGnuHeader with
      path := nOne
      entryType := .symlink }, []⟩

/-- Witness for C10: a single buffered symlink entry without a link name
panics the second pass. -/
theorem symlink_linkname_panic_C10_witness :
    (topologically_restore_symlinks anchorT ⟨[], []⟩ [entNoLink]).2 =
      .panicked msgLinkname :=
  symlink_linkname_panic_C10.1 anchorT ⟨[], []⟩ [entNoLink] (by decide)
    ⟨entNoLink, List.mem_cons_self _ _, rfl⟩

/-- One step along the symlink dependency graph. -/
def EdgeStep {α : Type} (edges : List (α × α)) (a b : α) : Prop :=
  (a, b) ∈ edges

instance {α : Type} [DecidableEq α] (edges : List (α × α)) :
    DecidableRel (EdgeStep edges) := fun a b =>
  inferInstanceAs (Decidable ((a, b) ∈ edges))

/-- The graph has a directed cycle: a nonempty edge path from some node
back to itself. -/
def HasCycle {α : Type} (edges : List (α × α)) : Prop :=
  ∃ a l, List.Chain (EdgeStep edges) a (l ++ [a])

theorem chain_pred {α : Type} (edges : List (α × α)) :
    ∀ (start : α) (l : List α), List.Chain (EdgeStep edges) start l →
      ∀ c ∈ l, ∃ p ∈ start :: l, (p, c) ∈ edges := by
  intro start l
  induction l generalizing start with
  | nil =>
    intro _ c hc
    cases hc
  | cons b l' ih =>
    intro hch c hc
    rcases List.chain_cons.mp hch with ⟨hR, hch'⟩
    rcases List.mem_cons.mp hc with rfl | hc'
    · exact ⟨start, List.mem_cons_self _ _, hR⟩
    · obtain ⟨p, hp, hpr⟩ := ih b hch' c hc'
      refine ⟨p, ?_, hpr⟩
      rcases List.mem_cons.mp hp with rfl | hp'
      · exact List.mem_cons.mpr (Or.inr (List.mem_cons_self _ _))
      · exact List.mem_cons.mpr (Or.inr (List.mem_cons.mpr (Or.inr hp')))

theorem cycle_pred {α : Type} (edges : List (α × α)) (a : α) (l : List α)
    (hch : List.Chain (EdgeStep edges) a (l ++ [a])) :
    ∀ c ∈ a :: l, ∃ p ∈ a :: l, (p, c) ∈ edges := by
  have hmem : ∀ x, x ∈ a :: (l ++ [a]) → x ∈ a :: l := by
    intro x hx
    rcases List.mem_cons.mp hx with rfl | hx'
    · exact List.mem_cons_self _ _
    · rcases List.mem_append.mp hx' with h1 | h1
      · exact List.mem_cons.mpr (Or.inr h1)
      · rcases List.mem_singleton.mp h1 with rfl
        exact List.mem_cons_self _ _
  intro c hc
  have hc2 : c ∈ l ++ [a] := by
    rcases List.mem_cons.mp hc with rfl | hc'
    · exact List.mem_append.mpr (Or.inr (List.mem_singleton.mpr rfl))
    · exact List.mem_append.mpr (Or.inl hc')
  obtain ⟨p, hp, hpr⟩ := chain_pred edges a (l ++ [a]) hch c hc2
  exact ⟨p, hmem p hp, hpr⟩

theorem noIncoming_spec {α : Type} [DecidableEq α] (nodes : List α)
    (edges : List (α × α)) (n : α) :
    noIncoming nodes edges n = true ↔
      ∀ p, (p, n) ∈ edges → p ∉ nodes := by
  rw [noIncoming, Bool.not_eq_eq_eq_not, Bool.not_true, List.any_eq_false]
  constructor
  · intro h p hpn hpm
    have h2 := h (p, n) hpn
    simp only [Bool.and_eq_true, decide_eq_true_eq, not_and] at h2
    exact h2 trivial hpm
  · intro h e he
    simp only [Bool.and_eq_true, decide_eq_true_eq, not_and]
    rcases e with ⟨p, q⟩
    dsimp only
    intro h2 hmem
    subst h2
    exact h p he hmem

theorem kahnAux_cycle_none {α : Type} [DecidableEq α]
    (edges : List (α × α)) :
    ∀ (fuel : Nat) (nodes : List α) (a : α) (l : List α),
      List.Chain (EdgeStep edges) a (l ++ [a]) →
      (∀ c ∈ a :: l, c ∈ nodes) →
      kahnAux edges fuel nodes = none := by
  intro fuel
  induction fuel with
  | zero =>
    intro nodes a l hch hsub
    rw [kahnAux]
    rw [if_neg]
    intro hnil
    have := hsub a (List.mem_cons_self _ _)
    rw [hnil] at this
    cases this
  | succ fuel ih =>
    intro nodes a l hch hsub
    rw [kahnAux]
    rw [if_neg (by
      intro hnil
      have := hsub a (List.mem_cons_self _ _)
      rw [hnil] at this
      cases this)]
    rcases hf : nodes.find? (noIncoming nodes edges) with _ | n
    · rfl
    · have hni : noIncoming nodes edges n = true := by
        have := List.find?_some hf
        exact this
      have hsub' : ∀ c ∈ a :: l, c ∈ nodes.erase n := by
        intro c hc
        have hcn : c ≠ n := by
          rintro rfl
          obtain ⟨p, hp, hpr⟩ := cycle_pred edges a l hch c hc
          exact (noIncoming_spec nodes edges c).mp hni p hpr (hsub p hp)
        exact List.mem_erase_of_ne hcn |>.mpr (hsub c hc)
      dsimp only
      rw [ih (nodes.erase n) a l hch hsub']

theorem exists_cycle_of_all_pred {α : Type} [DecidableEq α]
    (edges : List (α × α)) (S : List α) (hne : S ≠ [])
    (hpred : ∀ n ∈ S, ∃ p ∈ S, (p, n) ∈ edges) : HasCycle edges := by
  classical
  obtain ⟨n₀, hn₀⟩ := List.exists_mem_of_ne_nil S hne
  let f : {x // x ∈ S} → {x // x ∈ S} := fun x =>
    ⟨(hpred x.1 x.2).choose, ((hpred x.1 x.2).choose_spec).1⟩
  have hf : ∀ x : {x // x ∈ S}, ((f x).1, x.1) ∈ edges := fun x =>
    ((hpred x.1 x.2).choose_spec).2
  let g : ℕ → {x // x ∈ S} := fun k => f^[k] ⟨n₀, hn₀⟩
  have hg : ∀ k, ((g (k + 1)).1, (g k).1) ∈ edges := by
    intro k
    have hit : g (k + 1) = f (g k) := Function.iterate_succ_apply' f k _
    rw [hit]
    exact hf (g k)
  have hwalk : ∀ (d i : ℕ), ∃ l,
      List.Chain (EdgeStep edges) (g (i + d + 1)).1 (l ++ [(g i).1]) := by
    intro d
    induction d with
    | zero =>
      intro i
      refine ⟨[], ?_⟩
      simp only [List.nil_append, Nat.add_zero]
      exact List.Chain.cons (hg i) List.Chain.nil
    | succ d ih =>
      intro i
      obtain ⟨l, hl⟩ := ih i
      refine ⟨(g (i + d + 1)).1 :: l, ?_⟩
      have harith : i + (d + 1) + 1 = (i + d + 1) + 1 := by omega
      rw [harith]
      exact List.Chain.cons (hg (i + d + 1)) hl
  have key : ∀ i j, i < j → (g i).1 = (g j).1 → HasCycle edges := by
    intro i j hij heq
    obtain ⟨l, hl⟩ := hwalk (j - i - 1) i
    have harith : i + (j - i - 1) + 1 = j := by omega
    rw [harith] at hl
    rw [heq] at hl
    exact ⟨(g j).1, l, hl⟩
  have hmap : ∀ k ∈ Finset.range (S.length + 1), (g k).1 ∈ S.toFinset := by
    intro k _
    simpa using (g k).2
  have hcard : S.toFinset.card < (Finset.range (S.length + 1)).card := by
    rw [Finset.card_range]
    exact Nat.lt_succ_of_le (List.toFinset_card_le S)
  obtain ⟨i, hi, j, hj, hne2, heq⟩ :=
    Finset.exists_ne_map_eq_of_card_lt_of_maps_to hcard hmap
  rcases Nat.lt_or_ge i j with hij | hij
  · exact key i j hij heq
  · have hij2 : j < i := by omega
    exact key j i hij2 heq.symm

theorem kahnAux_none_cycle {α : Type} [DecidableEq α]
    (edges : List (α × α)) :
    ∀ (fuel : Nat) (nodes : List α), nodes.length ≤ fuel →
      kahnAux edges fuel nodes = none → HasCycle edges := by
  intro fuel
  induction fuel with
  | zero =>
    intro nodes hlen h
    rw [kahnAux] at h
    have : nodes = [] := List.eq_nil_of_length_eq_zero (by omega)
    rw [if_pos this] at h
    cases h
  | succ fuel ih =>
    intro nodes hlen h
    rw [kahnAux] at h
    by_cases hnil : nodes = []
    · rw [if_pos hnil] at h
      cases h
    · rw [if_neg hnil] at h
      rcases hf : nodes.find? (noIncoming nodes edges) with _ | n
      · refine exists_cycle_of_all_pred edges nodes hnil ?_
        intro n hn
        have hno : noIncoming nodes edges n = false := by
          rw [List.find?_eq_none] at hf
          rcases hb : noIncoming nodes edges n with _ | _
          · rfl
          · exact absurd hb (hf n hn)
        rw [noIncoming, Bool.not_eq_eq_eq_not, Bool.not_false,
          List.any_eq_true] at hno
        obtain ⟨e, he, hprop⟩ := hno
        rcases e with ⟨x, y⟩
        simp only [Bool.and_eq_true, decide_eq_true_eq] at hprop
        refine ⟨x, hprop.2, ?_⟩
        rw [← hprop.1]
        exact he
      · rw [hf] at h
        dsimp only at h
        have hmem : n ∈ nodes := List.mem_of_find?_eq_some hf
        have hlen' : (nodes.erase n).length ≤ fuel := by
          rw [List.length_erase_of_mem hmem]
          have : nodes.length ≠ 0 := by
            intro h0
            exact hnil (List.eq_nil_of_length_eq_zero h0)
          omega
        rcases hk : kahnAux edges fuel (nodes.erase n) with _ | l
        · exact ih (nodes.erase n) hlen' hk
        · rw [hk] at h
          cases h

theorem kahn_none_iff_cycle_of_closed {α : Type} [DecidableEq α]
    (edges : List (α × α)) (nodes : List α)
    (hclosed : ∀ e ∈ edges, e.1 ∈ nodes ∧ e.2 ∈ nodes) :
    kahn edges nodes = none ↔ HasCycle edges := by
  constructor
  · intro h
    exact kahnAux_none_cycle edges nodes.length nodes (Nat.le_refl _) h
  · rintro ⟨a, l, hch⟩
    refine kahnAux_cycle_none edges nodes.length nodes a l hch ?_
    intro c hc
    obtain ⟨p, hp, hpr⟩ := cycle_pred edges a l hch c hc
    exact (hclosed (p, c) hpr).2

theorem mem_internNode_self (nodes : List AbsPath) (p : AbsPath) :
    p ∈ internNode nodes p := by
  rw [internNode]
  by_cases h : p ∈ nodes
  · rwa [if_pos h]
  · rw [if_neg h]
    exact List.mem_append.mpr (Or.inr (List.mem_singleton.mpr rfl))

theorem mem_internNode_of_mem (nodes : List AbsPath) (p x : AbsPath)
    (h : x ∈ nodes) : x ∈ internNode nodes p := by
  rw [internNode]
  by_cases h2 : p ∈ nodes
  · rwa [if_pos h2]
  · rw [if_neg h2]
    exact List.mem_append.mpr (Or.inl h)

/-- Every edge of the symlink graph has both endpoints interned as
nodes. -/
def ClosedGraph (g : SymGraph) : Prop :=
  ∀ e ∈ g.edges, e.1 ∈ g.nodes ∧ e.2 ∈ g.nodes

theorem buildGraph_closed (anchor : AbsPath) (es : List Entry) :
    ∀ (g g' : SymGraph), ClosedGraph g →
      buildGraph anchor g es = .ok g' → ClosedGraph g' := by
  induction es with
  | nil =>
    intro g g' hc h
    rw [buildGraph] at h
    cases h
    exact hc
  | cons e0 es ih =>
    intro g g' hc h
    rw [buildGraph] at h
    rcases hcanon : canonicalize_name e0.header.path with err | name
    · rw [hcanon] at h
      cases h
    · rw [hcanon] at h
      dsimp only at h
      rcases hln : e0.header.linkName with _ | linkname
      · rw [hln] at h
        cases h
      · rw [hln] at h
        refine ih _ _ ?_ h
        intro e he
        rcases List.mem_append.mp he with h1 | h1
        · obtain ⟨ha, hb⟩ := hc e h1
          exact ⟨mem_internNode_of_mem _ _ _ (mem_internNode_of_mem _ _ _ ha),
            mem_internNode_of_mem _ _ _ (mem_internNode_of_mem _ _ _ hb)⟩
        · rcases List.mem_singleton.mp h1 with rfl
          exact ⟨mem_internNode_of_mem _ _ _ (mem_internNode_self _ _),
            mem_internNode_self _ _⟩

theorem restore_symlink_core_not_cd (fp : Bool) (anchor : AbsPath) (st : St)
    (h : TarHeader) :
    (restore_symlink_core fp anchor st h).2 ≠ .err .CycleDetected := by
  intro hout
  rw [restore_symlink_core] at hout
  rcases hcanon : canonicalize_name h.path with e | name
  · rw [hcanon] at hout
    rcases canonicalize_err_shape h.path e
        (by rw [hcanon]) with ⟨m, rfl⟩ | ⟨p, rfl⟩ <;> cases hout
  · rw [hcanon] at hout
    dsimp only at hout
    rcases hln : h.linkName with _ | linkname
    · rw [hln] at hout
      cases hout
    · rw [hln] at hout
      dsimp only at hout
      by_cases hcont :
          contained anchor (canonicalize_linkname anchor name linkname) = false
      · rw [if_pos hcont] at hout
        cases hout
      · rw [if_neg hcont] at hout
        by_cases hex : (fp && !statExists st.fs
            (canonicalize_linkname anchor name linkname)) = true
        · rw [if_pos hex] at hout
          cases hout
        · rw [if_neg hex] at hout
          rcases hpc : pathComponents name with _ | ⟨c, cs⟩
          · rw [hpc] at hout
            cases hout
          · rw [hpc] at hout
            dsimp only at hout
            rcases hw : walkCreate anchor linkFuel st anchor
              ((c :: cs).dropLast) with ⟨st', out2⟩
            rw [hw] at hout
            cases out2 with
            | ok r => cases hout
            | err e2 =>
              dsimp only at hout
              have he2 : e2 = .CycleDetected := by
                cases hout
                rfl
              subst he2
              rcases walkCreate_err_shape anchor linkFuel st anchor
                  ((c :: cs).dropLast) (.err .CycleDetected)
                  (by rw [hw]) with ⟨r, hr⟩ | hr | hr | ⟨t, hr⟩ <;> cases hr
            | panicked m => cases hout

theorem restoreInOrder_not_cd (anchor : AbsPath) (st : St)
    (hl : List (AbsPath × TarHeader)) (order : List AbsPath) :
    (restoreInOrder anchor st hl order).2 ≠ .err .CycleDetected := by
  induction order generalizing st with
  | nil =>
    rw [restoreInOrder]
    intro h
    cases h
  | cons n ns ih =>
    rw [restoreInOrder]
    rcases lookupGet hl n with _ | header
    · exact ih st
    · dsimp only
      rcases hrs : restore_symlink_with_missing_target anchor st header
        with ⟨st', out⟩
      cases out with
      | ok name =>
        dsimp only
        rcases hro : restoreInOrder anchor st' hl ns with ⟨st'', out2⟩
        cases out2 with
        | ok names =>
          intro h
          cases h
        | err e2 =>
          intro h
          have := ih st'
          rw [hro] at this
          exact this (by cases h; rfl)
        | panicked m =>
          intro h
          cases h
      | err e2 =>
        intro h
        have he2 : e2 = .CycleDetected := by
          cases h
          rfl
        subst he2
        have := restore_symlink_core_not_cd false anchor st header
        rw [restore_symlink_with_missing_target] at hrs
        rw [hrs] at this
        exact this rfl
      | panicked m =>
        intro h
        cases h

/-- C7: when the dependency graph built from the buffered symlinks is
cyclic, the second pass fails with `CycleDetected`, whose display string
is exactly "links in the cache are cyclic"; when it is acyclic, the
topological sort succeeds and no `CycleDetected` error is produced. -/
theorem cycle_detected_C7 :
    (∀ (anchor : AbsPath) (st : St) (symlinks : List Entry) (g : SymGraph),
      buildGraph anchor ⟨[], [], []⟩ symlinks = .ok g →
      HasCycle g.edges →
      topologically_restore_symlinks anchor st symlinks =
        (st, .err .CycleDetected)) ∧
    (∀ (anchor : AbsPath) (st : St) (symlinks : List Entry) (g : SymGraph),
      buildGraph anchor ⟨[], [], []⟩ symlinks = .ok g →
      ¬ HasCycle g.edges →
      (∃ order, kahn g.edges g.nodes = some order) ∧
      (topologically_restore_symlinks anchor st symlinks).2 ≠
        .err .CycleDetected) ∧
    errorMessage .CycleDetected = "links in the cache are cyclic".data := by
  have hclosed : ∀ (anchor : AbsPath) (symlinks : List Entry) (g : SymGraph),
      buildGraph anchor ⟨[], [], []⟩ symlinks = .ok g →
      ∀ e ∈ g.edges, e.1 ∈ g.nodes ∧ e.2 ∈ g.nodes := by
    intro anchor symlinks g hbg
    exact buildGraph_closed anchor symlinks _ g (fun e he => by cases he) hbg
  refine ⟨?_, ?_, rfl⟩
  · intro anchor st symlinks g hbg hcyc
    rw [topologically_restore_symlinks, hbg]
    dsimp only
    rw [(kahn_none_iff_cycle_of_closed g.edges g.nodes
      (hclosed anchor symlinks g hbg)).mpr hcyc]
  · intro anchor st symlinks g hbg hnocyc
    have hk : kahn g.edges g.nodes ≠ none := by
      intro hnone
      exact hnocyc ((kahn_none_iff_cycle_of_closed g.edges g.nodes
        (hclosed anchor symlinks g hbg)).mp hnone)
    rcases hkk : kahn g.edges g.nodes with _ | order
    · exact absurd hkk hk
    · refine ⟨⟨order, rfl⟩, ?_⟩
      rw [topologically_restore_symlinks, hbg]
      dsimp only
      rw [hkk]
      exact restoreInOrder_not_cd anchor st g.header_lookup order

def symsS4 : List Entry :=
  [entSym nOne nTwo, entSym nTwo nThree, entSym nThree nOne]

def gS4 : SymGraph :=
  match buildGraph anchorT ⟨[], [], []⟩ symsS4 with
  | .ok g => g
  | _ => ⟨[], [], []⟩

/-- Witness for C7 on the S4 cycle `one -> two -> three -> one`. -/
theorem cycle_detected_C7_witness :
    topologically_restore_symlinks anchorT ⟨[], []⟩ symsS4 =
      (⟨[], []⟩, .err .CycleDetected) :=
  cycle_detected_C7.1 anchorT ⟨[], []⟩ symsS4 gS4 (by decide)
    ⟨[['t'], nOne], [[['t'], nTwo], [['t'], nThree]], by
      refine List.Chain.cons ?_ (List.Chain.cons ?_
        (List.Chain.cons ?_ List.Chain.nil)) <;> decide⟩

theorem kahnAux_mem {α : Type} [DecidableEq α] (edges : List (α × α)) :
    ∀ (fuel : Nat) (nodes : List α) (l : List α),
      kahnAux edges fuel nodes = some l → ∀ x, x ∈ nodes ↔ x ∈ l := by
  intro fuel
  induction fuel with
  | zero =>
    intro nodes l h x
    rw [kahnAux] at h
    by_cases hnil : nodes = []
    · rw [if_pos hnil] at h
      cases h
      rw [hnil]
    · rw [if_neg hnil] at h
      cases h
  | succ fuel ih =>
    intro nodes l h x
    rw [kahnAux] at h
    by_cases hnil : nodes = []
    · rw [if_pos hnil] at h
      cases h
      rw [hnil]
    · rw [if_neg hnil] at h
      rcases hf : nodes.find? (noIncoming nodes edges) with _ | n
      · rw [hf] at h
        cases h
      · rw [hf] at h
        dsimp only at h
        rcases hk : kahnAux edges fuel (nodes.erase n) with _ | l'
        · rw [hk] at h
          cases h
        · rw [hk] at h
          cases h
          have hmem : n ∈ nodes := List.mem_of_find?_eq_some hf
          have hih := ih (nodes.erase n) l' hk x
          constructor
          · intro hx
            by_cases hxn : x = n
            · rw [hxn]
              exact List.mem_cons_self _ _
            · exact List.mem_cons.mpr (Or.inr (hih.mp
                ((List.mem_erase_of_ne hxn).mpr hx)))
          · intro hx
            rcases List.mem_cons.mp hx with rfl | hx'
            · exact hmem
            · exact List.mem_of_mem_erase (hih.mpr hx')

theorem kahnAux_sorted {α : Type} [DecidableEq α] (edges : List (α × α)) :
    ∀ (fuel : Nat) (nodes : List α) (l : List α),
      kahnAux edges fuel nodes = some l →
      ∀ a b, (a, b) ∈ edges → a ∈ nodes → b ∈ nodes →
        ∃ l1 l2, l = l1 ++ a :: l2 ∧ b ∈ l2 := by
  intro fuel
  induction fuel with
  | zero =>
    intro nodes l h a b hab ha hb
    rw [kahnAux] at h
    by_cases hnil : nodes = []
    · rw [hnil] at ha
      cases ha
    · rw [if_neg hnil] at h
      cases h
  | succ fuel ih =>
    intro nodes l h a b hab ha hb
    rw [kahnAux] at h
    by_cases hnil : nodes = []
    · rw [hnil] at ha
      cases ha
    · rw [if_neg hnil] at h
      rcases hf : nodes.find? (noIncoming nodes edges) with _ | n
      · rw [hf] at h
        cases h
      · rw [hf] at h
        dsimp only at h
        rcases hk : kahnAux edges fuel (nodes.erase n) with _ | l'
        · rw [hk] at h
          cases h
        · rw [hk] at h
          cases h
          have hni : noIncoming nodes edges n = true := List.find?_some hf
          have hbn : b ≠ n := by
            rintro rfl
            exact (noIncoming_spec nodes edges b).mp hni a hab ha
          have hb' : b ∈ nodes.erase n := (List.mem_erase_of_ne hbn).mpr hb
          by_cases han : a = n
          · subst han
            refine ⟨[], l', rfl, ?_⟩
            exact (kahnAux_mem edges fuel (nodes.erase a) l' hk b).mp hb'
          · have ha' : a ∈ nodes.erase n := (List.mem_erase_of_ne han).mpr ha
            obtain ⟨l1, l2, hl, hbl⟩ := ih (nodes.erase n) l' hk a b hab ha' hb'
            exact ⟨n :: l1, l2, by rw [hl]; rfl, hbl⟩

theorem kahn_sorted {α : Type} [DecidableEq α] (edges : List (α × α))
    (nodes l : List α) (h : kahn edges nodes = some l) :
    ∀ a b, (a, b) ∈ edges → a ∈ nodes → b ∈ nodes →
      ∃ l1 l2, l = l1 ++ a :: l2 ∧ b ∈ l2 :=
  kahnAux_sorted edges nodes.length nodes l h

/-- C8: a successful restore returns the names restored by the first
pass, in archive order, followed by the names created by the second pass,
which follows a topological order of the source-to-target symlink graph
(every edge's source node precedes its target node in the sort); on the
S3 archive (`one -> two -> three -> real` plus the file `real`) the
returned list is exactly ["real", "one", "two", "three"]. -/
theorem restore_order_C8 :
    (∀ (anchor : AbsPath) (fs0 : Fs) (entries : List Entry) (st' : St)
        (l : List (List Char)),
      restore anchor fs0 entries = (st', .ok l) →
      ∃ st₁ fp dfd g order sp,
        firstPass anchor { fs := create_dir_all fs0 anchor, writes := [] }
          entries = (st₁, .ok (fp, dfd)) ∧
        buildGraph anchor ⟨[], [], []⟩ dfd = .ok g ∧
        kahn g.edges g.nodes = some order ∧
        (∀ a b : AbsPath, (a, b) ∈ g.edges →
          ∃ o1 o2, order = o1 ++ a :: o2 ∧ b ∈ o2) ∧
        restoreInOrder anchor st₁ g.header_lookup order = (st', .ok sp) ∧
        l = fp ++ sp) ∧
    (restore anchorT [] [entSym nOne nTwo, entSym nTwo nThree,
      entSym nThree nReal, entFile nReal [1]]).2 =
      .ok [nReal, nOne, nTwo, nThree] := by
  constructor
  · intro anchor fs0 entries st' l h
    rw [restore, restore_entries] at h
    rcases hfp : firstPass anchor
      { fs := create_dir_all fs0 anchor, writes := [] } entries
      with ⟨st₁, out₁⟩
    rw [hfp] at h
    cases out₁ with
    | ok pr =>
      rcases pr with ⟨fp, dfd⟩
      dsimp only at h
      rcases hts : topologically_restore_symlinks anchor st₁ dfd
        with ⟨st₂, out₂⟩
      rw [hts] at h
      cases out₂ with
      | ok sp =>
        cases h
        rw [topologically_restore_symlinks] at hts
        rcases hbg : buildGraph anchor ⟨[], [], []⟩ dfd with g | e | m
        · rw [hbg] at hts
          dsimp only at hts
          rcases hkk : kahn g.edges g.nodes with _ | order
          · rw [hkk] at hts
            cases hts
          · rw [hkk] at hts
            dsimp only at hts
            refine ⟨st₁, fp, dfd, g, order, sp, rfl, hbg, hkk, ?_, hts, rfl⟩
            intro a b hab
            have hclosed := buildGraph_closed anchor dfd _ g
              (fun e he => by cases he) hbg (a, b) hab
            exact kahn_sorted g.edges g.nodes order hkk a b hab
              hclosed.1 hclosed.2
        · rw [hbg] at hts
          cases hts
        · rw [hbg] at hts
          cases hts
      | err e2 => cases h
      | panicked m => cases h
    | err e2 => cases h
    | panicked m => cases h
  · decide

def entriesS3 : List Entry :=
  [entSym nOne nTwo, entSym nTwo nThree, entSym nThree nReal,
   entFile nReal [1]]

def stS3 : St := (restore anchorT [] entriesS3).1

/-- Witness for C8: the S3 archive decomposes as first-pass ["real"]
followed by the topologically ordered ["one", "two", "three"]. -/
theorem restore_order_C8_witness :
    ∃ st₁ fp dfd g order sp,
      firstPass anchorT { fs := create_dir_all [] anchorT, writes := [] }
        entriesS3 = (st₁, .ok (fp, dfd)) ∧
      buildGraph anchorT ⟨[], [], []⟩ dfd = .ok g ∧
      kahn g.edges g.nodes = some order ∧
      (∀ a b : AbsPath, (a, b) ∈ g.edges →
        ∃ o1 o2, order = o1 ++ a :: o2 ∧ b ∈ o2) ∧
      restoreInOrder anchorT st₁ g.header_lookup order =
        (stS3, .ok sp) ∧
      [nReal, nOne, nTwo, nThree] = fp ++ sp :=
  restore_order_C8.1 anchorT [] entriesS3 stS3 [nReal, nOne, nTwo, nThree]
    (by decide)

/-- The canonicalized absolute source path under which a buffered
symlink entry is keyed by the graph builder (restore.rs lines 129-131),
when its name canonicalizes. -/
def sourceKeyOf (anchor : AbsPath) (e : Entry) : Option AbsPath :=
  match canonicalize_name e.header.path with
  | .error _ => none
  | .ok n => some (canonicalize_linkname anchor n n)

theorem lookupGet_insert_same (m : List (AbsPath × TarHeader)) (k : AbsPath)
    (v : TarHeader) : lookupGet (lookupInsert m k v) k = some v := by
  rw [lookupGet, lookupInsert]
  rw [List.find?_cons_of_pos _ (by simp)]
  rfl

theorem find?_keyfilter (m : List (AbsPath × TarHeader)) (k k' : AbsPath)
    (h : k' ≠ k) :
    (m.filter (fun e => !decide (e.1 = k))).find?
        (fun e => decide (e.1 = k')) =
      m.find? (fun e => decide (e.1 = k')) := by
  induction m with
  | nil => rfl
  | cons a m ih =>
    by_cases ha : a.1 = k
    · rw [List.filter_cons_of_neg (by simp [ha]), ih,
        List.find?_cons_of_neg _ (by
          simp only [ha, decide_eq_true_eq]
          exact fun hk => h hk.symm)]
    · rw [List.filter_cons_of_pos (by simp [ha])]
      by_cases hp : a.1 = k'
      · rw [List.find?_cons_of_pos _ (by simp [hp]),
          List.find?_cons_of_pos _ (by simp [hp])]
      · rw [List.find?_cons_of_neg _ (by simp [hp]),
          List.find?_cons_of_neg _ (by simp [hp])]
        exact ih

theorem lookupGet_insert_ne (m : List (AbsPath × TarHeader)) (k k' : AbsPath)
    (v : TarHeader) (h : k' ≠ k) :
    lookupGet (lookupInsert m k v) k' = lookupGet m k' := by
  rw [lookupGet, lookupInsert]
  rw [List.find?_cons_of_neg _ (by simp [Ne.symm h])]
  rw [find?_keyfilter m k k' h]
  rfl

theorem buildGraph_lookup_last (anchor : AbsPath) :
    ∀ (es : List Entry) (g g' : SymGraph),
      buildGraph anchor g es = .ok g' → ∀ k : AbsPath,
      lookupGet g'.header_lookup k =
        Option.elim
          ((es.filter
            (fun e => decide (sourceKeyOf anchor e = some k))).getLast?)
          (lookupGet g.header_lookup k) (fun e => some e.header) := by
  intro es
  induction es with
  | nil =>
    intro g g' h k
    rw [buildGraph] at h
    cases h
    rfl
  | cons e0 es ih =>
    intro g g' h k
    rw [buildGraph] at h
    rcases hcanon : canonicalize_name e0.header.path with err | name
    · rw [hcanon] at h
      cases h
    · rw [hcanon] at h
      dsimp only at h
      rcases hln : e0.header.linkName with _ | linkname
      · rw [hln] at h
        cases h
      · rw [hln] at h
        have hih := ih _ g' h k
        have hkey : sourceKeyOf anchor e0 =
            some (canonicalize_linkname anchor name name) := by
          rw [sourceKeyOf, hcanon]
        by_cases hsrc : canonicalize_linkname anchor name name = k
        · rw [List.filter_cons_of_pos (by rw [hkey, hsrc]; simp)]
          rcases hfes : es.filter
              (fun e => decide (sourceKeyOf anchor e = some k)) with _ | ⟨f, fs⟩
          · rw [hfes] at hih
            rw [hih]
            subst hsrc
            show lookupGet (lookupInsert g.header_lookup
                (canonicalize_linkname anchor name name) e0.header)
                (canonicalize_linkname anchor name name) = some e0.header
            exact lookupGet_insert_same _ _ _
          · rw [hfes] at hih
            rw [hih, List.getLast?_cons_cons, List.getLast?_cons]
            rfl
        · rw [List.filter_cons_of_neg (by rw [hkey]; simp [hsrc])]
          rcases hfes : es.filter
              (fun e => decide (sourceKeyOf anchor e = some k)) with _ | ⟨f, fs⟩
          · rw [hfes] at hih
            rw [hih]
            show lookupGet (lookupInsert g.header_lookup
                (canonicalize_linkname anchor name name) e0.header) k =
              lookupGet g.header_lookup k
            exact lookupGet_insert_ne _ _ _ _ (fun hk => hsrc hk.symm)
          · rw [hfes] at hih
            rw [hih, List.getLast?_cons]
            rfl

theorem internNode_nodup (nodes : List AbsPath) (p : AbsPath)
    (h : nodes.Nodup) : (internNode nodes p).Nodup := by
  rw [internNode]
  by_cases hmem : p ∈ nodes
  · rwa [if_pos hmem]
  · rw [if_neg hmem]
    simp [List.nodup_append, h, hmem]

theorem buildGraph_nodes_nodup (anchor : AbsPath) :
    ∀ (es : List Entry) (g g' : SymGraph), g.nodes.Nodup →
      buildGraph anchor g es = .ok g' → g'.nodes.Nodup := by
  intro es
  induction es with
  | nil =>
    intro g g' hnd h
    rw [buildGraph] at h
    cases h
    exact hnd
  | cons e0 es ih =>
    intro g g' hnd h
    rw [buildGraph] at h
    rcases hcanon : canonicalize_name e0.header.path with err | name
    · rw [hcanon] at h
      cases h
    · rw [hcanon] at h
      dsimp only at h
      rcases hln : e0.header.linkName with _ | linkname
      · rw [hln] at h
        cases h
      · rw [hln] at h
        exact ih _ g' (internNode_nodup _ _ (internNode_nodup _ _ hnd)) h

def symsS8 : List Entry :=
  [entSym nOne nTwo, entSym nOne nThree, entSym nOne nReal]

def entriesS8 : List Entry := symsS8 ++ [entFile nReal [1]]

def gS8 : SymGraph :=
  match buildGraph anchorT ⟨[], [], []⟩ symsS8 with
  | .ok g => g
  | _ => ⟨[], [], []⟩

/-- C9: deferred-symlink clobber is last-wins: the header lookup built
from the buffered entries maps every canonicalized absolute source path
to the header of the most recently seen entry with that source (the
entries collapsing into a single interned node, the node list being
duplicate-free); on the S8 archive (three symlinks named `one`, then the
file `real`) the restore succeeds with returned list ["real", "one"] and
on disk a single symlink `one -> real`. -/
theorem symlink_clobber_C9 :
    (∀ (anchor : AbsPath) (symlinks : List Entry) (g : SymGraph),
      buildGraph anchor ⟨[], [], []⟩ symlinks = .ok g →
      (∀ k : AbsPath, lookupGet g.header_lookup k =
        Option.elim
          ((symlinks.filter
            (fun e => decide (sourceKeyOf anchor e = some k))).getLast?)
          none (fun e => some e.header)) ∧
      g.nodes.Nodup) ∧
    ((restore anchorT [] entriesS8).2 = .ok [nReal, nOne] ∧
      fsGet (restore anchorT [] entriesS8).1.fs (anchorT ++ [nOne]) =
        some (.symlink nReal)) := by
  constructor
  · intro anchor symlinks g hbg
    constructor
    · intro k
      have := buildGraph_lookup_last anchor symlinks _ g hbg k
      rwa [show lookupGet ([] : List (AbsPath × TarHeader)) k = none from rfl]
        at this
    · exact buildGraph_nodes_nodup anchor symlinks _ g List.nodup_nil hbg
  · exact ⟨by decide, by decide⟩

/-- Witness for C9 at the S8 source key `anchor/one`: the lookup holds the
last entry's header. -/
theorem symlink_clobber_C9_witness :
    lookupGet gS8.header_lookup (anchorT ++ [nOne]) =
      Option.elim
        ((symsS8.filter (fun e =>
          decide (sourceKeyOf anchorT e = some (anchorT ++ [nOne])))).getLast?)
        none (fun e => some e.header) :=
  ((symlink_clobber_C9.1 anchorT symsS8 gS8 (by decide)).1) (anchorT ++ [nOne])

end Turbo